import Mathlib

/-!
Verification development for the comment-tree subsystem of the Yanjun repository
(`DouyinScraper/CommentTree.py` and its enum modules).  Python classes are
shallowly embedded as Lean structures and inductive trees; Python `list`s become
Lean `List`s, `uuid.UUID` values become `Nat` tokens, `datetime` date/time pairs
become `Nat` pairs ordered lexicographically, and raised exceptions become
`Except` errors.  Object identity is represented through the process-unique
`uuid` token carried by every node; Python structural equality (`__eq__`) is
embedded separately as the `pyEq` family of Boolean functions.
-/

namespace Yanjun

/-- Embeds `Gender.DouyinGender`, a `StrEnum` with values
`"male" | "female" | "unknown"`. -/
inductive DGen where
  | male
  | female
  | unknown
deriving DecidableEq, Repr

/-- The underlying string value of a `DouyinGender` member (it is a `StrEnum`,
so `str(g)` is the value itself). -/
def DGen.value : DGen → String
  | .male => "male"
  | .female => "female"
  | .unknown => "unknown"

/-- Embeds `AccountType.AcctType`, a `StrEnum` with values
`"blue" | "red" | "yellow" | "personal" | "unknown"`. -/
inductive AccT where
  | blue
  | red
  | yellow
  | personal
  | unknown
deriving DecidableEq, Repr

/-- The underlying string value of an `AcctType` member. -/
def AccT.value : AccT → String
  | .blue => "blue"
  | .red => "red"
  | .yellow => "yellow"
  | .personal => "personal"
  | .unknown => "unknown"

/-- Embeds `DataTypes.DtTypes` (`DTyp`), the enumeration of the fifteen
searchable record fields. -/
inductive Field where
  | cText
  | cUserLink
  | cLikes
  | uName
  | uLink
  | uID
  | IPTerritory
  | uFollowers
  | uFollowing
  | uLikesReceived
  | uVideoCount
  | uGender
  | uAge
  | uBio
  | uAccountType
deriving DecidableEq, Repr

/-- A dynamically-typed Python value as it occurs in the record fields and in
search targets: the validated value types are exactly
`str`, `int`, `DouyinGender` and `AcctType` (`DataTypeTypes.DtType2`). -/
inductive PyVal where
  | intV (n : Int)
  | strV (s : String)
  | genderV (g : DGen)
  | acctV (a : AccT)
deriving DecidableEq, Repr

/-- Embeds the `UserData` class: the twelve profile value fields
(`baseVars` order).  The per-field timestamp maps of `UserData` are not read by
any modelled operation (the CSV export reads only the `Data`-level maps) and
are omitted. -/
structure UserData where
  uName : String
  uLink : String
  uID : String
  IPTerritory : String
  uFollowers : Int
  uFollowing : Int
  uLikesReceived : Int
  uVideoCount : Int
  uGender : DGen
  uAge : Int
  uBio : String
  uAccountType : AccT
deriving DecidableEq, Repr

/-- `UserData.__init__`: strings empty, counters `-1`, enums `unknown`. -/
def UserData.default : UserData :=
  { uName := ""
  , uLink := ""
  , uID := ""
  , IPTerritory := ""
  , uFollowers := -1
  , uFollowing := -1
  , uLikesReceived := -1
  , uVideoCount := -1
  , uGender := DGen.unknown
  , uAge := -1
  , uBio := ""
  , uAccountType := AccT.unknown }

/-- `UserData.__eq__`: compares the twelve `baseVars` values (timestamps are
ignored by the shallow equality). -/
def UserData.pyEq (a b : UserData) : Bool :=
  a.uName == b.uName && a.uLink == b.uLink && a.uID == b.uID &&
  a.IPTerritory == b.IPTerritory && a.uFollowers == b.uFollowers &&
  a.uFollowing == b.uFollowing && a.uLikesReceived == b.uLikesReceived &&
  a.uVideoCount == b.uVideoCount && a.uGender == b.uGender &&
  a.uAge == b.uAge && a.uBio == b.uBio && a.uAccountType == b.uAccountType

/-- Embeds the `Data` class: comment text, author link, like count, the owned
`UserData`, and the `Data`-level collection-timestamp maps.  The Python class
keeps one date dictionary and one time dictionary keyed by the four `baseVars`
`cText`, `cUserLink`, `cLikes`, `userData`; every modelled writer sets the date
and time of an entry together, so each entry is modelled as one
`Option (Nat × Nat)` (calendar date and wall-clock time as ordered tokens). -/
structure Data where
  cText : String
  cUserLink : String
  cLikes : Int
  userData : UserData
  tsCText : Option (Nat × Nat)
  tsCUserLink : Option (Nat × Nat)
  tsCLikes : Option (Nat × Nat)
  tsUserData : Option (Nat × Nat)
deriving DecidableEq, Repr

/-- `Data.__init__`: empty text and link, zero likes, fresh `UserData`, all
timestamps unset. -/
def Data.default : Data :=
  { cText := ""
  , cUserLink := ""
  , cLikes := 0
  , userData := UserData.default
  , tsCText := none
  , tsCUserLink := none
  , tsCLikes := none
  , tsUserData := none }

/-- `Data.__eq__`: compares `cText`, `cUserLink`, `cLikes` and the owned
`UserData` (shallow equality — timestamps ignored). -/
def Data.pyEq (a b : Data) : Bool :=
  a.cText == b.cText && a.cUserLink == b.cUserLink && a.cLikes == b.cLikes &&
  UserData.pyEq a.userData b.userData

/-- `Data.deepGetAll` read through the `dataDict` built in `_dataSearch`:
`dict(zip([e.value for e in DTyp], node.data.deepGetAll()))[field.value]`.
The `DTyp` enumeration order coincides with the `deepGetAll` tuple order, so
the dictionary lookup is the straightforward field projection. -/
def Data.fieldVal (d : Data) : Field → PyVal
  | .cText => .strV d.cText
  | .cUserLink => .strV d.cUserLink
  | .cLikes => .intV d.cLikes
  | .uName => .strV d.userData.uName
  | .uLink => .strV d.userData.uLink
  | .uID => .strV d.userData.uID
  | .IPTerritory => .strV d.userData.IPTerritory
  | .uFollowers => .intV d.userData.uFollowers
  | .uFollowing => .intV d.userData.uFollowing
  | .uLikesReceived => .intV d.userData.uLikesReceived
  | .uVideoCount => .intV d.userData.uVideoCount
  | .uGender => .genderV d.userData.uGender
  | .uAge => .intV d.userData.uAge
  | .uBio => .strV d.userData.uBio
  | .uAccountType => .acctV d.userData.uAccountType

/-- `Data.deepSetAll(text, userLink, likes, name, ID, territory, followers,
following, likesReceived, videoCount, gender, age, bio, accountType, dateC,
timeC)`.  Note there is no `uLink` parameter: the nested call
`userData.setAll(name, userLink, ...)` stores the comment-level `userLink`
into the profile-link slot `uLink`.  All timestamp entries are overwritten
with the supplied `(dateC, timeC)` pair. -/
def Data.deepSetAll (text userLink : String) (likes : Int) (name uid territory : String)
    (followers following likesReceived videoCount : Int) (gender : DGen) (age : Int)
    (bio : String) (accountType : AccT) (dateC timeC : Nat) : Data :=
  { cText := text
  , cUserLink := userLink
  , cLikes := likes
  , userData :=
      { uName := name
      , uLink := userLink
      , uID := uid
      , IPTerritory := territory
      , uFollowers := followers
      , uFollowing := following
      , uLikesReceived := likesReceived
      , uVideoCount := videoCount
      , uGender := gender
      , uAge := age
      , uBio := bio
      , uAccountType := accountType }
  , tsCText := some (dateC, timeC)
  , tsCUserLink := some (dateC, timeC)
  , tsCLikes := some (dateC, timeC)
  , tsUserData := some (dateC, timeC) }

/-- The Python exceptions that the modelled code paths can raise. -/
inductive PyErr where
  | typeError
  | valueError
  | keyError
  | attributeError
deriving DecidableEq, Repr

/-- `str(x)` on a validated value.  `DouyinGender` and `AcctType` are
`StrEnum`s, so their string form is the member value itself. -/
def PyVal.pyStr : PyVal → String
  | .intV n => toString n
  | .strV s => s
  | .genderV g => g.value
  | .acctV a => a.value

/-- `int(s)` on a string: an optional sign followed by digits parses, anything
else raises `ValueError`.  (`String.toInt?` implements exactly this grammar.) -/
def parseIntPy (s : String) : Except PyErr Int :=
  match s.toInt? with
  | some n => .ok n
  | none => .error .valueError

/-- `DouyinGender(s)`: value lookup in the `StrEnum`, raising `ValueError` for
a non-member string. -/
def genderOfString (s : String) : Except PyErr DGen :=
  if s == "male" then .ok .male
  else if s == "female" then .ok .female
  else if s == "unknown" then .ok .unknown
  else .error .valueError

/-- `AcctType(s)`: value lookup in the `StrEnum`, raising `ValueError` for a
non-member string. -/
def acctOfString (s : String) : Except PyErr AccT :=
  if s == "blue" then .ok .blue
  else if s == "red" then .ok .red
  else if s == "yellow" then .ok .yellow
  else if s == "personal" then .ok .personal
  else .error .valueError

/-- `type(target)(source)` — the coercion performed inside `try_cast`.
For the four validated value types every possible failure is a `ValueError`:
`int(...)` of a non-numeric string (a `StrEnum` member is a `str`, so it is
parsed as its value string) raises `ValueError`, and calling a `StrEnum` class
on a value that is not one of its member values raises `ValueError`.
No combination of these types raises `TypeError`. -/
def pyCast (target source : PyVal) : Except PyErr PyVal :=
  match target with
  | .intV _ =>
    match source with
    | .intV n => .ok (.intV n)
    | .strV s => (parseIntPy s).map .intV
    | .genderV g => (parseIntPy g.value).map .intV
    | .acctV a => (parseIntPy a.value).map .intV
  | .strV _ => .ok (.strV source.pyStr)
  | .genderV _ =>
    match source with
    | .intV _ => .error .valueError
    | .strV s => (genderOfString s).map .genderV
    | .genderV g => .ok (.genderV g)
    | .acctV a => (genderOfString a.value).map .genderV
  | .acctV _ =>
    match source with
    | .intV _ => .error .valueError
    | .strV s => (acctOfString s).map .acctV
    | .genderV g => (acctOfString g.value).map .acctV
    | .acctV a => .ok (.acctV a)

/-- Python `==` on validated values: integers compare numerically, strings and
`StrEnum` members compare by their string value (a `StrEnum` member equals the
equal plain string), and an integer never equals a string. -/
def pyValEq (a b : PyVal) : Bool :=
  match a, b with
  | .intV m, .intV n => m == n
  | .intV _, _ => false
  | _, .intV _ => false
  | x, y => x.pyStr == y.pyStr

/-- Embeds `try_cast` inside `parseOpFunc`'s `wrap_operator`: coerce the first
argument to the type of the second and apply the operator; a `TypeError`
during coercion is caught, a warning is emitted (the second component of the
result records whether the warning fired) and the operator is applied to the
uncoerced arguments; any other exception propagates. -/
def try_cast (opF : PyVal → PyVal → Bool) (a b : PyVal) : Except PyErr (Bool × Bool) :=
  match pyCast b a with
  | .ok v => .ok (opF v b, false)
  | .error .typeError => .ok (opF a b, true)
  | .error e => .error e

/-- The scalar state of a `Node`: its `Data`, the parent back-reference
(modelled by the parent's process-unique token, `none` for a detached or root
node), the process-unique identifier `unique` (a `uuid.UUID`, modelled as a
`Nat` token; `uniqueStr` is its hex form and shares the token), and the cached
sibling index `indexFromParent` (`None` or a Python `int`). -/
structure NInfo where
  data : Data
  parent : Option Nat
  unique : Nat
  indexFromParent : Option Int
deriving DecidableEq, Repr

/-- Embeds the `Node` class: scalar state plus the ordered list of owned
children. -/
inductive Node where
  | mk (info : NInfo) (children : List Node)
deriving Repr

/-- The scalar state of a node. -/
def Node.info : Node → NInfo
  | .mk i _ => i

/-- `Node.children`. -/
def Node.children : Node → List Node
  | .mk _ cs => cs

/-- `Node.get_data`. -/
def Node.data (n : Node) : Data := n.info.data

/-- `Node.getUniqueID` (and `getUniqueStr`, which shares the token). -/
def Node.unique (n : Node) : Nat := n.info.unique

/-- `Node.get_parent`, as the parent's identity token. -/
def Node.parent (n : Node) : Option Nat := n.info.parent

/-- `Node.getIndexFromParent`. -/
def Node.indexFromParent (n : Node) : Option Int := n.info.indexFromParent

/-- `Node.setIndexFromParent`. -/
def Node.setIndexFromParent (n : Node) (i : Int) : Node :=
  .mk { n.info with indexFromParent := some i } n.children

/-- `Node.set_parent` (by identity token). -/
def Node.setParent (n : Node) (p : Option Nat) : Node :=
  .mk { n.info with parent := p } n.children

/-- `Node.is_leaf`. -/
def Node.is_leaf (n : Node) : Bool := n.children.isEmpty

/-- Embeds `Node.__init__(value, parent, uniqueID, indexFromParent)`.
`uuid.uuid4()` is modelled by the explicitly passed fresh token `freshId`,
used only when no `uniqueID` is supplied.  The stored cached index is the
source expression `indexFromParent if indexFromParent is None else 0`:
`None` stays `None`, and any supplied integer is replaced by `0`. -/
def Node.init (freshId : Nat) (value : Option Data) (parent : Option Nat)
    (uniqueID : Option Nat) (indexFromParent : Option Int) : Node :=
  .mk
    { data := value.getD Data.default
    , parent := parent
    , unique := uniqueID.getD freshId
    , indexFromParent := match indexFromParent with | none => none | some _ => some 0 }
    []

mutual

/-- `Node.__eq__`: shallow structural equality — compares the `Data`, the
cached sibling index, and the children lists recursively; identifiers and
parent references are ignored. -/
def Node.pyEq : Node → Node → Bool
  | .mk i cs, .mk j ds =>
    Data.pyEq i.data j.data && i.indexFromParent == j.indexFromParent && Node.pyEqL cs ds

/-- Pairwise `Node.__eq__` on children lists (length mismatch is unequal). -/
def Node.pyEqL : List Node → List Node → Bool
  | [], [] => true
  | a :: as, b :: bs => Node.pyEq a b && Node.pyEqL as bs
  | _, _ => false

end

mutual

/-- Lean equality on embedded nodes agrees with the Boolean comparison that
also inspects identifiers and parent tokens; used to derive decidability. -/
def Node.beq : Node → Node → Bool
  | .mk i cs, .mk j ds => i == j && Node.beqL cs ds

/-- Pairwise `Node.beq`. -/
def Node.beqL : List Node → List Node → Bool
  | [], [] => true
  | a :: as, b :: bs => Node.beq a b && Node.beqL as bs
  | _, _ => false

end

mutual

theorem Node.beq_iff : ∀ a b : Node, Node.beq a b = true ↔ a = b
  | .mk i cs, .mk j ds => by
    simp only [Node.beq, Bool.and_eq_true, beq_iff_eq, Node.mk.injEq]
    exact and_congr Iff.rfl (Node.beqL_iff cs ds)

theorem Node.beqL_iff : ∀ as bs : List Node, Node.beqL as bs = true ↔ as = bs
  | [], [] => by simp [Node.beqL]
  | [], _ :: _ => by simp [Node.beqL]
  | _ :: _, [] => by simp [Node.beqL]
  | a :: as, b :: bs => by
    simp only [Node.beqL, Bool.and_eq_true, List.cons.injEq]
    exact and_congr (Node.beq_iff a b) (Node.beqL_iff as bs)

end

instance : DecidableEq Node := fun a b =>
  decidable_of_iff (Node.beq a b = true) (Node.beq_iff a b)

mutual

/-- `Node.__len__` / `Node.size`: the number of nodes in the subtree,
including the node itself. -/
def Node.size : Node → Nat
  | .mk _ cs => 1 + Node.sizeL cs

/-- Total size of a forest. -/
def Node.sizeL : List Node → Nat
  | [] => 0
  | c :: cs => Node.size c + Node.sizeL cs

end

mutual

/-- `Node.flatten` (equivalently the `__iter__` order): all nodes of the
subtree in depth-first pre-order, the node first, children left to right. -/
def Node.flatten : Node → List Node
  | .mk i cs => .mk i cs :: Node.flattenL cs

/-- Depth-first pre-order of a forest. -/
def Node.flattenL : List Node → List Node
  | [] => []
  | c :: cs => Node.flatten c ++ Node.flattenL cs

end

mutual

theorem Node.size_eq_flatten_length : ∀ n : Node, Node.size n = (Node.flatten n).length
  | .mk i cs => by
    simp [Node.size, Node.flatten, Node.sizeL_eq_flattenL_length cs, Nat.add_comm]

theorem Node.sizeL_eq_flattenL_length :
    ∀ l : List Node, Node.sizeL l = (Node.flattenL l).length
  | [] => by simp [Node.sizeL, Node.flattenL]
  | c :: cs => by
    simp [Node.sizeL, Node.flattenL, Node.size_eq_flatten_length c,
      Node.sizeL_eq_flattenL_length cs]

end

/-- Python `list.index(child)` as invoked at the end of `Node.add_child`,
after `child` has been appended: the scan compares with `__eq__` (identity
first), so it returns the position of the first child structurally equal to
`child` among the pre-existing children, and the appended position (the old
length) when there is none. -/
def listIndexAppended (xs : List Node) (c : Node) : Nat :=
  (xs.findIdx? (fun e => Node.pyEq e c)).getD xs.length

/-- Embeds `Node.add_child`: append the child, point its parent reference at
this node, then set its cached index to `children.index(child)` — the position
of the first structurally equal entry of the (appended) list. -/
def Node.add_child (p c : Node) : Node :=
  let c1 := c.setParent (some p.unique)
  let i := listIndexAppended p.children c1
  .mk p.info (p.children ++ [c1.setIndexFromParent (Int.ofNat i)])

/-- Python `list.remove(child)`: delete the first element equal (`__eq__`,
identity first) to `child`; `ValueError` (here `none`) when there is none. -/
def erasePyEq : List Node → Node → Option (List Node)
  | [], _ => none
  | e :: es, c => if Node.pyEq e c then some es else (erasePyEq es c).map (fun l => e :: l)

/-- Embeds `Node.remove_child`: remove the first child structurally equal to
`child` from the children list.  The orphan's cleared parent reference lives
on the detached object and is not part of the remaining tree.  Note the
remaining siblings are returned untouched — their cached indices are not
revalidated. -/
def Node.remove_child (p c : Node) : Option Node :=
  (erasePyEq p.children c).map (fun cs => .mk p.info cs)

/-- Embeds `Node.replace_child`: overwrite the slot of the first child
structurally equal to `oldChild` with `newChild`, point the new child's parent
here, and set its cached index to `children.index(newChild)` — again the first
structurally equal position, searched in the updated list. -/
def Node.replace_child (p oldChild newChild : Node) : Option Node :=
  match p.children.findIdx? (fun e => Node.pyEq e oldChild) with
  | none => none
  | some i =>
    let new1 := newChild.setParent (some p.unique)
    let cs := p.children.set i new1
    let j := (cs.findIdx? (fun e => Node.pyEq e new1)).getD i
    some (.mk p.info (cs.set i (new1.setIndexFromParent (Int.ofNat j))))

mutual

/-- Checks the cached-sibling-index invariant: every child's
`indexFromParent` equals its actual position in its parent's children list,
recursively. -/
def Node.idxValid : Node → Bool
  | .mk _ cs => Node.idxValidL cs 0

/-- `idxValid` over a children list starting at position `k`. -/
def Node.idxValidL : List Node → Nat → Bool
  | [], _ => true
  | c :: cs, k =>
    c.indexFromParent == some (Int.ofNat k) && Node.idxValid c && Node.idxValidL cs (k + 1)

end

/-- One insertion step of a stable comparison sort: the new element `x`
(later in the original order) moves past every element it is not strictly
less than, so ties keep their original relative order. -/
def insertPy (less : α → α → Bool) (x : α) : List α → List α
  | [] => [x]
  | y :: ys => if less x y then x :: y :: ys else y :: insertPy less x ys

/-- Python `sorted(xs, key=cmp_to_key(cmp))` — a stable sort whose
"strictly less" test is `cmp x y < 0`; modelled as left-to-right stable
insertion, which agrees with any stable sort of a consistent comparator. -/
def pySorted (less : α → α → Bool) (xs : List α) : List α :=
  xs.foldl (fun acc x => insertPy less x acc) []

/-- The key extracted by the default `Node.sort` parameters
(`variable = DTyp.cLikes`, `key = lambda x: x.data.deepGetAll(True)[variable.value]`). -/
def sortKeyLikes (n : Node) : Int := n.data.cLikes

/-- The comparator value reaching `cmp_to_key` in `Node.sort` for the default
`cmp = "<"`: `_pyCmpFromCmp` builds `preCMP3 = parseOpFunc("<")`, which is the
`try_cast` wrapper around `operator.lt`, not `operator.lt` itself; therefore
none of the `preCMP3 == opp.lt`-style branches fire and the wrapper is
returned unchanged.  Applied to two integer keys the cast is the identity, so
the "comparator" is the Boolean `a < b`, which `cmp_to_key` consumes as the
integer `1` (true) or `0` (false). -/
def defaultCmpInt (a b : Int) : Int := if a < b then 1 else 0

/-- The strict-less test `cmp(key(a), key(b)) < 0` used by the default
`Node.sort`: the comparator only returns `0` or `1`, so it never holds. -/
def defaultLess (a b : Node) : Bool := decide (defaultCmpInt (sortKeyLikes a) (sortKeyLikes b) < 0)

mutual

/-- The first loop of `Node.sort` with default parameters: every node's
children list is re-ordered by the (degenerate) default comparator.  The
Python loop sorts a node's children before the iterator descends into them;
since the comparator reads only node data, sorting after the recursive
descent produces the same tree. -/
def Node.sortPassDefault : Node → Node
  | .mk i cs => .mk i (pySorted defaultLess (Node.sortPassDefaultL cs))

/-- `sortPassDefault` applied to each tree of a forest. -/
def Node.sortPassDefaultL : List Node → List Node
  | [] => []
  | c :: cs => Node.sortPassDefault c :: Node.sortPassDefaultL cs

end

mutual

/-- The second loop of `Node.sort`: for every node of the subtree, each
child's cached index is overwritten with its actual position. -/
def Node.revalidate : Node → Node
  | .mk i cs => .mk i (Node.revalidateL cs 0)

/-- `revalidate` over a children list, numbering from `k`. -/
def Node.revalidateL : List Node → Nat → List Node
  | [], _ => []
  | c :: cs, k => (Node.revalidate c).setIndexFromParent (Int.ofNat k) :: Node.revalidateL cs (k + 1)

end

/-- Embeds `Node.sort()` with all-default arguments (`variable=None` →
`cLikes`, `reverse=False`, `key=None`, `cmp=None` → `"<"`): the comparison
pass followed by the index-revalidation pass. -/
def Node.sortDefault (n : Node) : Node := Node.revalidate (Node.sortPassDefault n)

/-- One query-set test inside `_dataSearch`: a node hits query-set
`(vars2[i], data2[i])` when every positionally paired field/target satisfies
the operator predicate (`all(opFF(dataDict[k.value], expected) ...)`). -/
def matchesQuery (pred : PyVal → PyVal → Bool) (n : Node) (q : List Field × List PyVal) : Bool :=
  (q.1.zip q.2).all (fun p => pred (Data.fieldVal n.data p.1) p.2)

/-- The `for i in range(len(vars2))` loop of `_dataSearch`, carried out over
the zipped query-sets with `i` tracking the position: when this is the first
visited node (`iterated` false) a fresh empty result list is appended for each
query-set; a hit appends the node to the result list of position `i` if the
node was not already claimed by an earlier query-set, and otherwise emits a
duplicate warning (counted in the last component). -/
def dataSearchGo (pred : PyVal → PyVal → Bool) (n : Node) (iterated : Bool) :
    List (List Field × List PyVal) → Nat → List (List Node) → Bool → Nat →
    List (List Node) × Bool × Nat
  | [], _, curr, added, warns => (curr, added, warns)
  | q :: rest, i, curr, added, warns =>
    let curr1 := if iterated then curr else curr ++ [[]]
    if matchesQuery pred n q then
      if added then dataSearchGo pred n iterated rest (i + 1) curr1 added (warns + 1)
      else
        dataSearchGo pred n iterated rest (i + 1)
          (curr1.set i (curr1.getD i [] ++ [n])) true warns
    else dataSearchGo pred n iterated rest (i + 1) curr1 added warns

/-- Embeds `_dataSearch(node2, vars2, data2, innerCurrList, iterated2, added,
opFF)` as called from `_recursiveVarSearch`: `added` enters as `False` for
each visited node, and the returned flag records whether this node was claimed
by some query-set.  (The Python function also returns `iterated2 = True`,
which the caller rebinds; the duplicate-warning count is returned explicitly
here.) -/
def dataSearch (pred : PyVal → PyVal → Bool) (n : Node)
    (queries : List (List Field × List PyVal)) (curr : List (List Node)) (iterated : Bool) :
    List (List Node) × Bool × Nat :=
  dataSearchGo pred n iterated queries 0 curr false 0

mutual

/-- Embeds `_recursiveVarSearch(node, rVars, rData, rCount, currList,
iterated, opF)`: stop when the remaining budget is `0`; test the node against
every query-set; decrement the budget if the node was claimed; descend into
the children (Python passes the decremented budget and `iterated = True` down,
and its own loop variable `rCount` never changes inside the loop). -/
def recursiveVarSearch (pred : PyVal → PyVal → Bool)
    (queries : List (List Field × List PyVal)) :
    Node → Int → List (List Node) → Bool → Nat → List (List Node) × Nat
  | .mk i cs, rCount, curr, iterated, warns =>
    if rCount = 0 then (curr, warns)
    else
      let r := dataSearch pred (.mk i cs) queries curr iterated
      let rCount1 := if r.2.1 then rCount - 1 else rCount
      if cs.isEmpty then (r.1, warns + r.2.2)
      else recursiveVarSearchL pred queries cs rCount1 r.1 true (warns + r.2.2)

/-- The `for child in node.children` loop of `_recursiveVarSearch`, with the
post-call `if rCount == 0: return currList` early exit. -/
def recursiveVarSearchL (pred : PyVal → PyVal → Bool)
    (queries : List (List Field × List PyVal)) :
    List Node → Int → List (List Node) → Bool → Nat → List (List Node) × Nat
  | [], _, curr, _, warns => (curr, warns)
  | c :: cs, rCount, curr, iterated, warns =>
    let r := recursiveVarSearch pred queries c rCount curr iterated warns
    if rCount = 0 then r
    else recursiveVarSearchL pred queries cs rCount r.1 iterated r.2

end

/-- An element of the heterogeneous Python lists built by `recursiveAll`:
either a node or a nested list. -/
inductive NEntry where
  | node (n : Node)
  | sub (l : List NEntry)

mutual

/-- `recursiveFlatten` on one element: a node contributes itself, a nested
list is flattened recursively. -/
def recursiveFlatten : NEntry → List Node
  | .node n => [n]
  | .sub l => recursiveFlattenL l

/-- Embeds `recursiveFlatten(inList)`: extract all non-list elements of a
nested list in order. -/
def recursiveFlattenL : List NEntry → List Node
  | [] => []
  | e :: rest => recursiveFlatten e ++ recursiveFlattenL rest

end

mutual

/-- Embeds the inner `recursiveAll(node, currList)` of `find_nodes` (the
no-criteria branch): if the accumulated list already has `count` elements it
is returned as is; otherwise the node is appended, the children are folded
through recursively, and — as written in the source — the final result is the
accumulated list wrapped in a singleton list (`return [currList]`), so a
nested layer appears around the accumulator at every completed call. -/
def recursiveAll (count : Int) : Node → List NEntry → List NEntry
  | .mk i cs, curr =>
    if (curr.length : Int) = count then curr
    else [.sub (recursiveAllL count cs (curr ++ [.node (.mk i cs)]))]

/-- The `for child in node.children: currList = recursiveAll(child, currList)`
loop. -/
def recursiveAllL (count : Int) : List Node → List NEntry → List NEntry
  | [], curr => curr
  | c :: cs, curr => recursiveAllL count cs (recursiveAll count c curr)

end

/-- Python list indexing `xs[i]` with negative-index wrap-around; `none` is
the `IndexError` case. -/
def pyListGet (xs : List α) (i : Int) : Option α :=
  if 0 ≤ i then xs.get? i.toNat
  else
    let j := (xs.length : Int) + i
    if 0 ≤ j then xs.get? j.toNat else none

/-- The index-path walk shared by `find_nodes` (indexLists branch) and
`find_node_by_index`: follow `children[index]` for each index; on an
`IndexError` warn and keep the last resolved node. -/
def walkIndexPath : Node → List Int → Node
  | n, [] => n
  | n, i :: rest =>
    match pyListGet n.children i with
    | some c => walkIndexPath c rest
    | none => n

/-- The differently shaped lists that `find_nodes` can return: the
no-criteria nested list, the flat node list of the index-path branch, and the
per-query-set grouped lists of the search branch. -/
inductive FindResult where
  | plain (entries : List NEntry)
  | direct (nodes : List Node)
  | grouped (groups : List (List Node))

/-- The indexLists branch of `find_nodes`: an empty list of paths warns and
returns `[]`; otherwise each path is resolved by `walkIndexPath` (the branch
also overwrites `count` with `len(indexLists)`, which does not influence the
returned value). -/
def findNodesIndexBranch (n : Node) (ils : List (List Int)) : Except PyErr FindResult :=
  if ils.isEmpty then .ok (.direct [])
  else .ok (.direct (ils.map (fun p => walkIndexPath n p)))

/-- The query-set branch of `find_nodes` after the outer length check: the
per-pair validation raises `ValueError` when some query-set and its target
list have different lengths.  (The subsequent element-type validation in the
source compares `type(data[i][ji])` with a `DtType2` *enum member* — not with
the type the member denotes — via `is`, which is false for every datum, so
that check never raises and is a no-op.)  The query-sets are zipped with
their targets and handed to `_recursiveVarSearch` with an empty accumulator;
the warning channel is not part of the returned value. -/
def findNodesVarBranch (n : Node) (cap : Int) (vs : List (List Field))
    (ds : List (List PyVal)) (pred : PyVal → PyVal → Bool) : Except PyErr FindResult :=
  if (vs.zip ds).any (fun p => p.1.length ≠ p.2.length) then .error .valueError
  else .ok (.grouped (recursiveVarSearch pred (vs.zip ds) n cap [] false 0).1)

/-- Embeds `Node.find_nodes(count, variables, data, indexLists,
operatorCode)`.  `variables` and `data` are taken in the already-nested
list-of-query-sets shape (the reshaping performed by the source on the other
accepted shapes is the identity on this canonical shape, and its
malformed-shape `TypeError`s cannot arise in the typed embedding);
`operatorCode` is taken as the already-parsed binary predicate produced by
`parseOpFunc`.  The stages, in source order: interpret `count` (`None` → `-1`;
`0` returns `[]` immediately; `-1` becomes the subtree size; larger than the
subtree warns and clamps), the no-criteria branch, the two
one-of-vars-and-data `ValueError`s, the outer vars/data length check, the
indexLists branch, and the recursive query-set search. -/
def findNodes (n : Node) (count : Option Int) (varsQ : Option (List (List Field)))
    (data : Option (List (List PyVal))) (indexLists : Option (List (List Int)))
    (pred : PyVal → PyVal → Bool) : Except PyErr FindResult :=
  let c0 := count.getD (-1)
  if c0 = 0 then .ok (.plain [])
  else
    let c1 := if c0 = -1 then (Node.size n : Int) else c0
    let c2 := if c1 > (Node.size n : Int) then (Node.size n : Int) else c1
    match varsQ, data, indexLists with
    | none, none, none => .ok (.plain (recursiveAll c2 n []))
    | some _, none, _ => .error .valueError
    | none, some _, _ => .error .valueError
    | none, none, some ils => findNodesIndexBranch n ils
    | some vs, some ds, ils =>
      if vs.length ≠ ds.length then .error .valueError
      else
        match ils with
        | some ils2 => findNodesIndexBranch n ils2
        | none => findNodesVarBranch n c2 vs ds pred

/-- The index of the first query-set that a node hits, if any. -/
def firstMatchIdx (pred : PyVal → PyVal → Bool)
    (queries : List (List Field × List PyVal)) (m : Node) : Option Nat :=
  queries.findIdx? (fun q => matchesQuery pred m q)

/-- How many query-sets a node hits. -/
def countMatches (pred : PyVal → PyVal → Bool)
    (queries : List (List Field × List PyVal)) (m : Node) : Nat :=
  (queries.filter (fun q => matchesQuery pred m q)).length

/-- The grouped result the search actually produces on a full traversal: one
list per query-set, the `i`-th containing, in depth-first pre-order, exactly
the subtree nodes whose first hit is query-set `i`. -/
def specLists (pred : PyVal → PyVal → Bool)
    (queries : List (List Field × List PyVal)) (n : Node) : List (List Node) :=
  (List.range queries.length).map
    (fun i => (Node.flatten n).filter (fun m => firstMatchIdx pred queries m == some i))

/-- One visited node's duplicate warnings: its additional hits beyond the
first. -/
def nodeWarns (pred : PyVal → PyVal → Bool)
    (queries : List (List Field × List PyVal)) (m : Node) : Nat :=
  countMatches pred queries m - 1

/-- The duplicate warnings emitted on a full traversal: one per additional
query-set hit by an already-claimed node. -/
def specWarns (pred : PyVal → PyVal → Bool)
    (queries : List (List Field × List PyVal)) (n : Node) : Nat :=
  ((Node.flatten n).map (nodeWarns pred queries)).sum

/-- One visited node's effect on the accumulated result lists: append the
node to the list of the first query-set it hits, if any. -/
def searchStep (pred : PyVal → PyVal → Bool)
    (queries : List (List Field × List PyVal))
    (acc : List (List Node)) (m : Node) : List (List Node) :=
  match firstMatchIdx pred queries m with
  | some k => acc.set k (acc.getD k [] ++ [m])
  | none => acc

/-- Embeds the `CommentTree` class: the sentinel root node and the key sets of
the two identity maps (`uuidDict`, keyed by the `uuid.UUID` token, and
`uuidStrDict`, keyed by its hex string — modelled by the same token since the
hex form is a bijective image).  The map values are the node objects
themselves; under the maintained identity invariant the value of a key is the
reachable node carrying that token, so the model keeps only the key sets. -/
structure CommentTree where
  root : Node
  uuidKeys : List Nat
  uuidStrKeys : List Nat
deriving DecidableEq, Repr

/-- `CommentTree.__init__`: a fresh dummy root (whose cached index is then
explicitly set to `0`) registered in both maps. -/
def CommentTree.init (freshId : Nat) : CommentTree :=
  let root1 := (Node.init freshId none none none none).setIndexFromParent 0
  { root := root1, uuidKeys := [root1.unique], uuidStrKeys := [root1.unique] }

/-- The identity tokens of all reachable nodes, in depth-first pre-order. -/
def Node.uuids (n : Node) : List Nat := (Node.flatten n).map Node.unique

/-- The identity tokens of a forest in depth-first pre-order. -/
def Node.uuidsL (ns : List Node) : List Nat := (Node.flattenL ns).map Node.unique

/-- Python dict assignment `d[k] = v` seen on the key list: insertion order is
preserved and re-assigning an existing key keeps its position. -/
def dictInsertKey (ks : List Nat) (u : Nat) : List Nat := if u ∈ ks then ks else ks ++ [u]

/-- Python `del d[k]` seen on the key list; `none` is the `KeyError`. -/
def dictRemoveKey (ks : List Nat) (u : Nat) : Option (List Nat) :=
  if u ∈ ks then some (ks.erase u) else none

mutual

/-- Attaching a node under the (first pre-order) node carrying the parent
token: this realises `parent.add_child(node)` for a `parent` argument that is
an attached node object, identified by its process-unique token.  The flag
reports whether the parent was found; when it is not, the tree is unchanged
(the Python call would mutate an object outside this tree). -/
def attachUnder : Node → Nat → Node → Node × Bool
  | .mk i cs, pu, c =>
    if i.unique = pu then (Node.add_child (.mk i cs) c, true)
    else
      let r := attachUnderL cs pu c
      (.mk i r.1, r.2)

/-- `attachUnder` over a forest, left to right, stopping at the first hit. -/
def attachUnderL : List Node → Nat → Node → List Node × Bool
  | [], _, _ => ([], false)
  | n :: ns, pu, c =>
    let r := attachUnder n pu c
    if r.2 then (r.1 :: ns, true)
    else
      let rs := attachUnderL ns pu c
      (n :: rs.1, rs.2)

end

/-- Embeds `CommentTree.add_node_parent(node, parent)` with the parent given
by its identity token: attach under the parent and register the node's token
in both identity maps.  (Registration happens regardless of whether the
parent object belongs to this tree, exactly as in the source.) -/
def CommentTree.add_node_parent (t : CommentTree) (node : Node) (parentUuid : Nat) :
    CommentTree :=
  { root := (attachUnder t.root parentUuid node).1
  , uuidKeys := dictInsertKey t.uuidKeys node.unique
  , uuidStrKeys := dictInsertKey t.uuidStrKeys node.unique }

/-- `CommentTree.add_top_node`: attach directly under the sentinel root. -/
def CommentTree.add_top_node (t : CommentTree) (node : Node) : CommentTree :=
  t.add_node_parent node t.root.unique

/-- `CommentTree.add_node(node, indexList)`: resolve the index path with the
clamping walk of `find_node_by_index`, then attach there. -/
def CommentTree.add_node (t : CommentTree) (node : Node) (indexList : List Int) :
    CommentTree :=
  t.add_node_parent node (walkIndexPath t.root indexList).unique

mutual

/-- Embeds the structural part of `CommentTree.remove_node(node)` for a
`node` that is attached: Python reads `node.parent` and calls
`parent.remove_child(node)`; under the identity invariant that parent is the
(first pre-order) node having a child with the given token, and
`list.remove` then deletes the first *structurally equal* child — which need
not be the child carrying the token. -/
def removeByUuid : Node → Nat → Node × Bool
  | .mk i cs, u =>
    if cs.any (fun ch => ch.unique = u) then
      let c := (cs.find? (fun ch => ch.unique = u)).getD (.mk i cs)
      (.mk i ((erasePyEq cs c).getD cs), true)
    else
      let r := removeByUuidL cs u
      (.mk i r.1, r.2)

/-- `removeByUuid` over a forest, stopping at the first subtree that contains
the parent. -/
def removeByUuidL : List Node → Nat → List Node × Bool
  | [], _ => ([], false)
  | n :: ns, u =>
    let r := removeByUuid n u
    if r.2 then (r.1 :: ns, true)
    else
      let rs := removeByUuidL ns u
      (n :: rs.1, rs.2)

end

/-- Embeds `CommentTree.remove_node` (and its by-id/by-string forms, which
only differ in the map used for the lookup): detach the node from its parent
and delete both identity-map entries.  `none` covers the raising paths: the
`KeyError` of a lookup miss and the `AttributeError` of removing the root
(whose parent is `None`). -/
def CommentTree.remove_node (t : CommentTree) (u : Nat) : Option CommentTree :=
  if u ∉ t.uuidKeys then none
  else if t.root.unique = u then none
  else
    let r := removeByUuid t.root u
    match dictRemoveKey t.uuidKeys u, dictRemoveKey t.uuidStrKeys u with
    | some ks, some sks => some { root := r.1, uuidKeys := ks, uuidStrKeys := sks }
    | _, _ => none

/-- `CommentTree.remove_node_by_index`: resolve the path, then remove. -/
def CommentTree.remove_node_by_index (t : CommentTree) (indexList : List Int) :
    Option CommentTree :=
  t.remove_node (walkIndexPath t.root indexList).unique

mutual

/-- Embeds the structural part of `CommentTree.replace_node(old, new)` for an
attached `old` node identified by its token: locate its parent and perform
`parent.replace_child(old, new)` (both of whose `list.index` scans are
first-structural-match scans). -/
def replaceByUuid : Node → Nat → Node → Node × Bool
  | .mk i cs, u, nn =>
    if cs.any (fun ch => ch.unique = u) then
      let c := (cs.find? (fun ch => ch.unique = u)).getD (.mk i cs)
      ((Node.replace_child (.mk i cs) c nn).getD (.mk i cs), true)
    else
      let r := replaceByUuidL cs u nn
      (.mk i r.1, r.2)

/-- `replaceByUuid` over a forest. -/
def replaceByUuidL : List Node → Nat → Node → List Node × Bool
  | [], _, _ => ([], false)
  | n :: ns, u, nn =>
    let r := replaceByUuid n u nn
    if r.2 then (r.1 :: ns, true)
    else
      let rs := replaceByUuidL ns u nn
      (n :: rs.1, rs.2)

end

/-- Embeds `CommentTree.replace_node` (and its by-id/by-string forms): swap
the node in its slot, delete the old map entries, insert the new ones. -/
def CommentTree.replace_node (t : CommentTree) (u : Nat) (newNode : Node) :
    Option CommentTree :=
  if u ∉ t.uuidKeys then none
  else if t.root.unique = u then none
  else
    let r := replaceByUuid t.root u newNode
    match dictRemoveKey t.uuidKeys u, dictRemoveKey t.uuidStrKeys u with
    | some ks, some sks =>
      some { root := r.1
           , uuidKeys := dictInsertKey ks newNode.unique
           , uuidStrKeys := dictInsertKey sks newNode.unique }
    | _, _ => none

/-- `CommentTree.replace_node_by_index`. -/
def CommentTree.replace_node_by_index (t : CommentTree) (newNode : Node)
    (indexList : List Int) : Option CommentTree :=
  t.replace_node (walkIndexPath t.root indexList).unique newNode

/-- `CommentTree.__len__` / `size`: nodes excluding the sentinel root. -/
def CommentTree.size (t : CommentTree) : Nat := Node.size t.root - 1

/-- `CommentTree.flatten`: depth-first pre-order of the whole tree,
root included. -/
def CommentTree.flatten (t : CommentTree) : List Node := Node.flatten t.root

mutual

/-- Locates the parent that `remove_node`/`replace_node` would mutate (the
first pre-order node having a child with the given token) and checks the
side conditions under which the mutation detaches exactly that child: the
child is a leaf, and the first *structurally equal* child — the one
`list.remove` / `list.index` actually picks — is the child carrying the
token.  `none` when no parent holds such a child. -/
def removeCheck : Node → Nat → Option Bool
  | .mk i cs, u =>
    if cs.any (fun ch => ch.unique = u) then
      let c := (cs.find? (fun ch => ch.unique = u)).getD (.mk i cs)
      some (c.children.isEmpty &&
        ((cs.findIdx? (fun e => Node.pyEq e c)) == (cs.findIdx? (fun e => e.unique = u))))
    else removeCheckL cs u

/-- `removeCheck` over a forest. -/
def removeCheckL : List Node → Nat → Option Bool
  | [], _ => none
  | n :: ns, u =>
    match removeCheck n u with
    | some b => some b
    | none => removeCheckL ns u

end

/-- The tree-level mutation operations named by the identity-map invariant:
attach (top-level, under a parent, at an index path), remove (by node/id/
string, by index path) and replace (by node/id/string, by index path).
Parents and targets are designated by identity token or index path. -/
inductive TreeOp where
  | addTop (node : Node)
  | addParent (node : Node) (parentUuid : Nat)
  | addAt (node : Node) (path : List Int)
  | removeById (u : Nat)
  | removeAt (path : List Int)
  | replaceById (newNode : Node) (u : Nat)
  | replaceAt (newNode : Node) (path : List Int)

/-- Applies one operation; `none` is a raised lookup error. -/
def CommentTree.applyOp (t : CommentTree) : TreeOp → Option CommentTree
  | .addTop node => some (t.add_top_node node)
  | .addParent node pu => some (t.add_node_parent node pu)
  | .addAt node path => some (t.add_node node path)
  | .removeById u => t.remove_node u
  | .removeAt path => t.remove_node_by_index path
  | .replaceById nn u => t.replace_node u nn
  | .replaceAt nn path => t.replace_node_by_index nn path

/-- Sufficient conditions for an attach to preserve the identity-map
invariant: the attached node is childless, its token is fresh, and the
designated parent is attached. -/
def addValid (t : CommentTree) (node : Node) (pu : Nat) : Bool :=
  node.children.isEmpty && !(decide (node.unique ∈ Node.uuids t.root)) &&
    decide (pu ∈ Node.uuids t.root)

/-- Sufficient conditions for a removal to preserve the invariant: the target
is a registered non-root node and `removeCheck` accepts it. -/
def removeValid (t : CommentTree) (u : Nat) : Bool :=
  decide (u ∈ t.uuidKeys) && !(t.root.unique == u) && (removeCheck t.root u).getD false

/-- Sufficient conditions for a replacement: those of a removal of the old
node plus freshness and childlessness of the new node. -/
def replaceValid (t : CommentTree) (u : Nat) (nn : Node) : Bool :=
  removeValid t u && nn.children.isEmpty && !(decide (nn.unique ∈ Node.uuids t.root))

/-- The validity condition of one operation against the current tree. -/
def TreeOp.valid (t : CommentTree) : TreeOp → Bool
  | .addTop node => addValid t node t.root.unique
  | .addParent node pu => addValid t node pu
  | .addAt node path => addValid t node (walkIndexPath t.root path).unique
  | .removeById u => removeValid t u
  | .removeAt path => removeValid t (walkIndexPath t.root path).unique
  | .replaceById nn u => replaceValid t u nn
  | .replaceAt nn path => replaceValid t (walkIndexPath t.root path).unique nn

/-- Runs a sequence of operations, requiring each to be valid for the current
tree; `none` when some operation is invalid or raises. -/
def CommentTree.runOpsValid (t : CommentTree) : List TreeOp → Option CommentTree
  | [] => some t
  | op :: ops =>
    if TreeOp.valid t op then
      match t.applyOp op with
      | some t2 => t2.runOpsValid ops
      | none => none
    else none

/-- The identity-map invariant: reachable tokens are pairwise distinct, the
key list of `uuidDict` is duplicate-free and coincides (as a set) with the
reachable tokens, and `uuidStrDict` carries exactly the same keys. -/
def CommentTree.Inv (t : CommentTree) : Prop :=
  (Node.uuids t.root).Nodup ∧ t.uuidKeys.Nodup ∧
  (∀ u ∈ t.uuidKeys, u ∈ Node.uuids t.root) ∧
  (∀ u ∈ Node.uuids t.root, u ∈ t.uuidKeys) ∧
  t.uuidStrKeys = t.uuidKeys

instance (t : CommentTree) : Decidable t.Inv := by
  unfold CommentTree.Inv
  infer_instance

/-- Python tuple comparison `(date, time) < (date2, time2)`, lexicographic. -/
def tsLt (x y : Nat × Nat) : Bool := x.1 < y.1 || (x.1 == y.1 && x.2 < y.2)

/-- One step of Python `max`: keep the current value unless the new one is
strictly greater, so the first maximum wins. -/
def tsMax (x y : Nat × Nat) : Nat × Nat := if tsLt x y then y else x

/-- The `latestDataCollectionDateTime` computation of `toCSV`: the maximum of
the four `Data`-level `(date, time)` entries in `baseVars` order.  When some
entry is unset (`None`), Python compares a tuple containing `None` and raises
`TypeError`. -/
def Data.latestTimestamp (d : Data) : Except PyErr (Nat × Nat) :=
  match d.tsCText, d.tsCUserLink, d.tsCLikes, d.tsUserData with
  | some a, some b, some c, some e => .ok (tsMax (tsMax (tsMax a b) c) e)
  | _, _, _, _ => .error .typeError

/-- One data row of the flat-table export: identifier, parent identifier,
sibling index (as written — an integer or `None`), the fifteen value fields,
and the latest collection date and time.  The textual encoding of these
columns round-trips exactly for the types at hand (`DGen[str(g)]` and
`AccT[str(a)]` recover the member because each member's name equals its
value), so the row is modelled with typed fields. -/
structure CSVRow where
  unique : Nat
  parentUnique : Nat
  index : Option Int
  cText : String
  cUserLink : String
  cLikes : Int
  uName : String
  uLink : String
  uID : String
  IPTerritory : String
  uFollowers : Int
  uFollowing : Int
  uLikesReceived : Int
  uVideoCount : Int
  uGender : DGen
  uAge : Int
  uBio : String
  uAccountType : AccT
  collDate : Nat
  collTime : Nat
deriving DecidableEq, Repr

/-- The strict-less test reaching the stable sort inside `iterSort(key=lambda
x: x.getIndexFromParent())`: the comparator is again the `try_cast` wrapper
around `operator.lt` (default `cmp="<"`), Boolean-valued, so on two integer
keys it never reports "less"; a `None` key makes the cast raise `TypeError`,
whose fallback comparison `int < None` raises `TypeError` again, uncaught. -/
def idxLess (a b : Node) : Except PyErr Bool :=
  match a.indexFromParent, b.indexFromParent with
  | some _, some _ => .ok false
  | _, _ => .error .typeError

/-- `insertPy` in the `Except` monad: the insertion step of the stable sort,
propagating a comparator exception. -/
def insertPyE (less : α → α → Except PyErr Bool) (x : α) : List α → Except PyErr (List α)
  | [] => .ok [x]
  | y :: ys => do
    let b ← less x y
    if b then return x :: y :: ys
    else
      let rest ← insertPyE less x ys
      return y :: rest

/-- Stable sort in the `Except` monad (Python `sorted` with a raising
comparator). -/
def pySortedE (less : α → α → Except PyErr Bool) (xs : List α) : Except PyErr (List α) :=
  match xs with
  | [] => .ok []
  | x :: rest => do
    let acc ← pySortedE less rest
    insertPyE less x acc

mutual

/-- The comparison pass of the `tempTree.sort(...)` call inside `iterSort`
as used by `toCSV` (key = cached sibling index, default comparator): every
node's children are re-ordered by the degenerate comparator. -/
def exportSortPass : Node → Except PyErr Node
  | .mk i cs => do
    let cs1 ← exportSortPassL cs
    let cs2 ← pySortedE idxLess cs1
    return Node.mk i cs2

/-- `exportSortPass` over a forest. -/
def exportSortPassL : List Node → Except PyErr (List Node)
  | [] => .ok []
  | c :: cs => do
    let c1 ← exportSortPass c
    let cs1 ← exportSortPassL cs
    return c1 :: cs1

end

/-- One exported data row for an attached non-root node: the parent token is
read from the node's parent reference (`AttributeError` if it is absent),
and the latest timestamp from the `Data`-level maps. -/
def rowOfNode (n : Node) : Except PyErr CSVRow :=
  match n.parent with
  | none => .error .attributeError
  | some pu => do
    let ts ← Data.latestTimestamp n.data
    return { unique := n.unique
           , parentUnique := pu
           , index := n.indexFromParent
           , cText := n.data.cText
           , cUserLink := n.data.cUserLink
           , cLikes := n.data.cLikes
           , uName := n.data.userData.uName
           , uLink := n.data.userData.uLink
           , uID := n.data.userData.uID
           , IPTerritory := n.data.userData.IPTerritory
           , uFollowers := n.data.userData.uFollowers
           , uFollowing := n.data.userData.uFollowing
           , uLikesReceived := n.data.userData.uLikesReceived
           , uVideoCount := n.data.userData.uVideoCount
           , uGender := n.data.userData.uGender
           , uAge := n.data.userData.uAge
           , uBio := n.data.userData.uBio
           , uAccountType := n.data.userData.uAccountType
           , collDate := ts.1
           , collTime := ts.2 }

/-- `mapM` for row building. -/
def rowsOfNodes : List Node → Except PyErr (List CSVRow)
  | [] => .ok []
  | n :: ns => do
    let r ← rowOfNode n
    let rs ← rowsOfNodes ns
    return r :: rs

/-- Embeds `CommentTree.toCSV`: the header carries no data, the first data row
carries only the root identifier (modelled as the first component), and one
row per non-root node follows in the traversal order of
`iterSort(key=getIndexFromParent)` — the depth-first order of the copied tree
after the (degenerate) sort pass and the index-revalidation pass.  The deep
copy shares the value state and is not modelled separately; the copied
children's stale parent pointers still carry the original parents' tokens. -/
def CommentTree.toCSV (t : CommentTree) : Except PyErr (Nat × List CSVRow) := do
  let sorted ← exportSortPass t.root
  let reval := Node.revalidate sorted
  let rows ← rowsOfNodes ((Node.flatten reval).drop 1)
  return (t.root.unique, rows)

mutual

/-- `node.setIndexFromParent(index)` applied to the attached node carrying the
given token (first pre-order occurrence); the flag reports whether the node
was found. -/
def setIdxByUuidF : Node → Nat → Int → Node × Bool
  | .mk i cs, u, v =>
    if i.unique = u then (.mk { i with indexFromParent := some v } cs, true)
    else
      let r := setIdxByUuidFL cs u v
      (.mk i r.1, r.2)

/-- `setIdxByUuidF` over a forest, stopping at the first occurrence. -/
def setIdxByUuidFL : List Node → Nat → Int → List Node × Bool
  | [], _, _ => ([], false)
  | n :: ns, u, v =>
    let r := setIdxByUuidF n u v
    if r.2 then (r.1 :: ns, true)
    else
      let rs := setIdxByUuidFL ns u v
      (n :: rs.1, rs.2)

end

/-- `setIdxByUuidF`, keeping only the tree. -/
def setIdxByUuid (n : Node) (u : Nat) (v : Int) : Node := (setIdxByUuidF n u v).1

/-- The row loop of `fromCSV`: for each row, build a fresh node carrying the
row's identifier, fill its `Data` via `deepSetAll` — whose argument list has
no profile-link slot, so `uLink` receives the comment-level `cUserLink` and
the exported `uLink` column (column 7) is never read — record the node in the
local `nodes` dictionary (modelled by the accumulated token list), attach it
under `nodes[parentID]` (`KeyError` when the parent has not appeared yet), and
finally overwrite its cached index with the stored value. -/
def fromCSVGo : CommentTree → List Nat → List CSVRow → Except PyErr CommentTree
  | t, _, [] => .ok t
  | t, seen, row :: rest => do
    let idx ← match row.index with
      | some i => Except.ok i
      | none => Except.error PyErr.valueError
    let nodeData := Data.deepSetAll row.cText row.cUserLink row.cLikes row.uName row.uID
      row.IPTerritory row.uFollowers row.uFollowing row.uLikesReceived row.uVideoCount
      row.uGender row.uAge row.uBio row.uAccountType row.collDate row.collTime
    let node := Node.init 0 (some nodeData) none (some row.unique) none
    let seen1 := dictInsertKey seen row.unique
    if row.parentUnique ∈ seen1 then
      let t1 := t.add_node_parent node row.parentUnique
      let t2 : CommentTree :=
        { t1 with root := setIdxByUuid t1.root row.unique idx }
      fromCSVGo t2 seen1 rest
    else .error .keyError

/-- Embeds `CommentTree.fromCSV`: a fresh tree whose root is a new dummy node
re-identified with the stored root identifier (`setUniqueID`; the stale
`uniqueStr` of the discarded random identifier is not modelled because no
verified property reads the string map of an imported tree), then the row
loop.  The `int(...)`/`DGen[...]`/`AccT[...]` parses of the textual columns
are the identity on the typed row fields. -/
def CommentTree.fromCSV (rootUnique : Nat) (rows : List CSVRow) : Except PyErr CommentTree :=
  let root1 := (Node.init 0 (some Data.default) none (some rootUnique) none).setIndexFromParent 0
  fromCSVGo { root := root1, uuidKeys := [rootUnique], uuidStrKeys := [rootUnique] }
    [rootUnique] rows

/-- `CommentTree.__eq__`: structural equality of the roots (shallow node
equality: values and cached indices, recursively). -/
def CommentTree.pyEq (a b : CommentTree) : Bool := Node.pyEq a.root b.root

/-! ### Concrete inputs used by the claim theorems -/

/-- A comment record with the given text and like count, all else default. -/
def mkData (t : String) (likes : Int) : Data :=
  { Data.default with cText := t, cLikes := likes }

/-- A node literal with the given token, data, cached index and children. -/
def mkNode (u : Nat) (d : Data) (idx : Option Int) (cs : List Node) : Node :=
  .mk { data := d, parent := none, unique := u, indexFromParent := idx } cs

/-- The spec example tree: a root with children holding comments
`"a"` (5 likes), `"b"` (50 likes), `"c"` (1 like) at indices 0, 1, 2. -/
def exTreeSort : Node := mkNode 0 Data.default (some 0)
  [mkNode 1 (mkData "a" 5) (some 0) []
  , mkNode 2 (mkData "b" 50) (some 1) []
  , mkNode 3 (mkData "c" 1) (some 2) []]

/-- A tree with one query-set target: two distinct children both carrying
5 likes. -/
def exTreeTwoHits : Node := mkNode 0 Data.default (some 0)
  [mkNode 1 (mkData "x" 5) (some 0) [], mkNode 2 (mkData "y" 5) (some 1) []]

/-- The single query-set "like count equals 5". -/
def exQueryLikes5 : List (List Field × List PyVal) := [([Field.cLikes], [PyVal.intV 5])]

/-- A branching tree for the no-criteria cap: the root, a first child with
one grandchild, and a second child. -/
def exTreeBranch : Node := mkNode 0 Data.default (some 0)
  [mkNode 1 (mkData "a" 0) (some 0) [mkNode 2 (mkData "aa" 0) (some 0) []]
  , mkNode 3 (mkData "b" 0) (some 1) []]

/-- Shared comment data for the structurally-equal-sibling scenarios. -/
def exDataSame : Data := mkData "same" 7

/-- A parent that already owns a child structurally equal to the node being
attached next. -/
def exParentEq : Node := mkNode 10 Data.default (some 0) [mkNode 11 exDataSame (some 0) []]

/-- A freshly constructed node carrying the same data; the constructor turns
the supplied index 7 into the stored cached index 0, making it structurally
equal to the existing child. -/
def exFreshEq : Node := Node.init 99 (some exDataSame) none (some 12) (some 7)

/-- A parent with three distinct children at indices 0, 1, 2. -/
def exParent3 : Node := mkNode 20 Data.default (some 0)
  [mkNode 21 (mkData "a" 1) (some 0) []
  , mkNode 22 (mkData "b" 2) (some 1) []
  , mkNode 23 (mkData "c" 3) (some 2) []]

/-- The middle child of `exParent3`, as the caller would pass it to
`remove_child`. -/
def exMiddle : Node := mkNode 22 (mkData "b" 2) (some 1) []

/-- A record whose author-link (`cUserLink = "x"`) differs from its
profile-link (`uLink = "y"`), with all collection timestamps set. -/
def exDataLinks : Data :=
  { cText := "t", cUserLink := "x", cLikes := 3
  , userData := { UserData.default with uLink := "y", uName := "nm" }
  , tsCText := some (5, 6), tsCUserLink := some (5, 6)
  , tsCLikes := some (5, 7), tsUserData := some (5, 6) }

/-- A one-comment tree holding `exDataLinks`, with consistent identity maps. -/
def exTreeLinks : CommentTree :=
  { root := .mk { data := Data.default, parent := none, unique := 200, indexFromParent := some 0 }
      [.mk { data := exDataLinks, parent := some 200, unique := 201, indexFromParent := some 0 } []]
  , uuidKeys := [200, 201], uuidStrKeys := [200, 201] }

/-- Two childless nodes used to grow a fresh tree by the tree operations. -/
def exNodeA : Node := mkNode 101 (mkData "a" 1) none []

/-- See `exNodeA`. -/
def exNodeB : Node := mkNode 102 (mkData "b" 2) none []

/-- `fromCSV` applied to the output of `toCSV` — the round trip of the claim. -/
def roundTripCSV (t : CommentTree) : Except PyErr CommentTree := do
  let p ← t.toCSV
  CommentTree.fromCSV p.1 p.2

/-- The tree grown from a fresh tree by attaching node 101 under the root and
node 102 under 101. -/
def exTreeGrown : CommentTree :=
  ((CommentTree.init 100).add_top_node exNodeA).add_node_parent exNodeB 101

/-- The three-child parent 20 after removing its middle child. -/
def exParent3Removed : Node := .mk exParent3.info
  [mkNode 21 (mkData "a" 1) (some 0) [], mkNode 23 (mkData "c" 3) (some 2) []]

/-! ### Basic lemmas about the embedded equality -/

theorem userData_pyEq_refl (u : UserData) : UserData.pyEq u u = true := by
  simp [UserData.pyEq]

theorem data_pyEq_refl (d : Data) : Data.pyEq d d = true := by
  simp [Data.pyEq, userData_pyEq_refl]

mutual

theorem Node.pyEq_refl : ∀ n : Node, Node.pyEq n n = true
  | .mk i cs => by
    simp [Node.pyEq, data_pyEq_refl, Node.pyEqL_refl cs]

theorem Node.pyEqL_refl : ∀ l : List Node, Node.pyEqL l l = true
  | [] => by simp [Node.pyEqL]
  | c :: cs => by simp [Node.pyEqL, Node.pyEq_refl c, Node.pyEqL_refl cs]

end

/-- `Node.__eq__` ignores the parent reference. -/
theorem Node.pyEq_setParent (a b : Node) (x : Option Nat) :
    Node.pyEq a (b.setParent x) = Node.pyEq a b := by
  cases a with
  | mk i cs =>
    cases b with
    | mk j ds => simp [Node.setParent, Node.pyEq, Node.info, Node.children]

/-! ### C10 — the constructor's cached-index initialisation -/

/-- C10: a `Node` built directly by the constructor stores cached index `0`
whenever an explicit `indexFromParent` integer is supplied — regardless of its
value — and stores `None` when the argument is omitted. -/
theorem C10_constructor_index (freshId : Nat) (v : Option Data) (p : Option Nat)
    (u : Option Nat) (i : Int) :
    (Node.init freshId v p u (some i)).indexFromParent = some 0 ∧
    (Node.init freshId v p u none).indexFromParent = none :=
  ⟨rfl, rfl⟩

/-! ### C8 — coercion failures in the casting predicate -/

theorem parseIntPy_error {s : String} {e : PyErr} (h : parseIntPy s = .error e) :
    e = PyErr.valueError := by
  unfold parseIntPy at h
  cases hs : s.toInt? with
  | some n => rw [hs] at h; cases h
  | none =>
    rw [hs] at h
    injection h with h2
    exact h2.symm

theorem genderOfString_error {s : String} {e : PyErr} (h : genderOfString s = .error e) :
    e = PyErr.valueError := by
  unfold genderOfString at h
  split_ifs at h
  all_goals simp_all

theorem acctOfString_error {s : String} {e : PyErr} (h : acctOfString s = .error e) :
    e = PyErr.valueError := by
  unfold acctOfString at h
  split_ifs at h
  all_goals simp_all

/-- Transfers an error bound through `Except.map`. -/
theorem exceptMap_error {α β : Type} {g : Except PyErr α} {f : α → β} {e : PyErr}
    (h : g.map f = .error e) (hg : ∀ e2, g = .error e2 → e2 = PyErr.valueError) :
    e = PyErr.valueError := by
  cases g with
  | ok v => simp [Except.map] at h
  | error e2 =>
    simp [Except.map] at h
    exact h ▸ hg e2 rfl

/-- Every failing coercion between the validated value types raises
`ValueError`, never `TypeError`. -/
theorem pyCast_error (a b : PyVal) (e : PyErr) (h : pyCast b a = .error e) :
    e = PyErr.valueError := by
  cases b with
  | intV m =>
    cases a with
    | intV n => cases h
    | strV s =>
      exact exceptMap_error h (fun e2 h2 => parseIntPy_error h2)
    | genderV g =>
      exact exceptMap_error h (fun e2 h2 => parseIntPy_error h2)
    | acctV ac =>
      exact exceptMap_error h (fun e2 h2 => parseIntPy_error h2)
  | strV s => cases h
  | genderV g =>
    cases a with
    | intV n => simp only [pyCast, Except.error.injEq] at h; exact h.symm
    | strV s =>
      exact exceptMap_error h (fun e2 h2 => genderOfString_error h2)
    | genderV g2 => cases h
    | acctV ac =>
      exact exceptMap_error h (fun e2 h2 => genderOfString_error h2)
  | acctV ac =>
    cases a with
    | intV n => simp only [pyCast, Except.error.injEq] at h; exact h.symm
    | strV s =>
      exact exceptMap_error h (fun e2 h2 => acctOfString_error h2)
    | genderV g2 =>
      exact exceptMap_error h (fun e2 h2 => acctOfString_error h2)
    | acctV ac2 => cases h

/-- C8 (amended): with casting enabled, a successful coercion applies the
operator to the coerced pair without warning; a `ValueError` during coercion
propagates out of the predicate (the warn-and-fall-back path only catches
`TypeError`); and for the validated value types every coercion failure *is* a
`ValueError`, so the fallback never fires. -/
theorem C8_cast_failure (opF : PyVal → PyVal → Bool) (a b : PyVal) :
    (∀ v, pyCast b a = .ok v → try_cast opF a b = .ok (opF v b, false)) ∧
    (pyCast b a = .error .valueError → try_cast opF a b = .error .valueError) ∧
    (∀ e, pyCast b a = .error e → e = PyErr.valueError) := by
  refine ⟨?_, ?_, fun e h => pyCast_error a b e h⟩
  · intro v hv
    simp [try_cast, hv]
  · intro hv
    simp [try_cast, hv]

/-- Witness for `C8_cast_failure` at a concrete failing coercion: coercing the
integer `5` to the `StrEnum` type of the gender target raises `ValueError`. -/
theorem C8_cast_failure_witness :
    try_cast pyValEq (PyVal.intV 5) (PyVal.genderV DGen.unknown) = .error .valueError :=
  (C8_cast_failure pyValEq (PyVal.intV 5) (PyVal.genderV DGen.unknown)).2.1 rfl

/-- C8 counterexample: coercing the integer `5` to the gender target's
`StrEnum` type fails with `ValueError`, and the predicate propagates the
error instead of warning and comparing the uncoerced values (which would have
produced `False`). -/
theorem C8_counterexample :
    pyCast (PyVal.genderV DGen.unknown) (PyVal.intV 5) = .error .valueError ∧
    try_cast pyValEq (PyVal.intV 5) (PyVal.genderV DGen.unknown) = .error .valueError ∧
    pyValEq (PyVal.intV 5) (PyVal.genderV DGen.unknown) = false :=
  ⟨rfl, rfl, rfl⟩

/-! ### C3 — the default sort call -/

/-- C3: on the spec's example tree, `sort()` with the default field, order and
comparator leaves the children in their original order `["a", "b", "c"]` —
the comparator reaching `cmp_to_key` is the Boolean `try_cast` wrapper, which
never returns a negative value, so the stable sort reorders nothing.  (The
cached indices 0, 1, 2 are revalidated to the same values.) -/
theorem C3_sort_noop :
    Node.sortDefault exTreeSort = exTreeSort ∧
    exTreeSort.children.map (fun n => n.data.cText) = ["a", "b", "c"] ∧
    exTreeSort.children.map Node.indexFromParent = [some 0, some 1, some 2] :=
  ⟨rfl, rfl, rfl⟩

/-! ### C6 — the no-criteria cap -/

/-- C6: with no criteria and cap 2 on a 4-node subtree, the call returns (in
its nested grouping) the three nodes 0, 1, 3 — not the first two nodes 0, 1
of the depth-first pre-order: the `return [currList]` wrapping resets the
length-based cap at every branch. -/
theorem C6_cap_overrun :
    (findNodes exTreeBranch (some 2) none none none pyValEq).map
      (fun r => match r with
        | .plain es => (recursiveFlattenL es).map Node.unique
        | .direct ns => ns.map Node.unique
        | .grouped _ => []) = .ok [0, 1, 3] ∧
    ((Node.flatten exTreeBranch).take 2).map Node.unique = [0, 1] :=
  ⟨rfl, rfl⟩

/-! ### C9 — fail-fast validation of query-sets and targets -/

/-- C9 (amended): unless the caller passes the literal cap `0` — which
returns an empty result *before* any validation — supplying field selectors
without targets, targets without selectors, or selector and target lists of
different outer lengths raises `ValueError` before any traversal; the search
path never mutates the tree (the embedded search returns only result lists).
-/
theorem C9_validation (n : Node) (count : Option Int) (vs : List (List Field))
    (ds : List (List PyVal)) (ils : Option (List (List Int)))
    (pred : PyVal → PyVal → Bool) (hc : count ≠ some 0) :
    findNodes n count (some vs) none ils pred = .error .valueError ∧
    findNodes n count none (some ds) ils pred = .error .valueError ∧
    (vs.length ≠ ds.length → findNodes n count (some vs) (some ds) ils pred = .error .valueError) := by
  have h0 : count.getD (-1) ≠ 0 := by
    cases count with
    | none => decide
    | some c =>
      simp only [Option.getD]
      intro hEq
      exact hc (by rw [hEq])
  refine ⟨?_, ?_, fun hlen => ?_⟩
  · simp [findNodes, h0]
  · simp [findNodes, h0]
  · simp [findNodes, h0, hlen]

/-- Witness for `C9_validation` at concrete mismatched calls. -/
theorem C9_validation_witness :
    findNodes exTreeBranch none (some [[Field.cLikes]]) none none pyValEq = .error .valueError ∧
    findNodes exTreeBranch none none (some [[PyVal.intV 1]]) none pyValEq = .error .valueError ∧
    findNodes exTreeBranch none (some [[Field.cLikes]]) (some []) none pyValEq = .error .valueError :=
  ⟨(C9_validation exTreeBranch none [[Field.cLikes]] [] none pyValEq (by simp)).1
  , (C9_validation exTreeBranch none [] [[PyVal.intV 1]] none pyValEq (by simp)).2.1
  , (C9_validation exTreeBranch none [[Field.cLikes]] [] none pyValEq (by simp)).2.2 (by decide)⟩

/-- C9 counterexample: with the cap `0`, a call supplying selectors without
targets returns an empty list instead of raising. -/
theorem C9_counterexample :
    findNodes exTreeBranch (some 0) (some [[Field.cLikes]]) none none pyValEq =
      .ok (.plain []) := rfl

/-! ### C2 — the flat-table round trip -/

/-- C2: the round trip is lossy.  On a one-comment tree whose profile-link
`uLink = "y"` differs from its author-link `cUserLink = "x"`, the export
writes `"y"` into the `uLink` column, but the import never reads that column
(`deepSetAll` has no profile-link parameter and stores the author-link there),
so the reconstructed tree carries `uLink = "x"` and shallow equality fails. -/
theorem C2_roundtrip_loss :
    (CommentTree.toCSV exTreeLinks).map (fun p => p.2.map (fun r => r.uLink)) = .ok ["y"] ∧
    (roundTripCSV exTreeLinks).map
      (fun t2 => (Node.flatten t2.root).map (fun n => n.data.userData.uLink)) = .ok ["", "x"] ∧
    (roundTripCSV exTreeLinks).map (CommentTree.pyEq exTreeLinks) = .ok false :=
  ⟨rfl, rfl, rfl⟩

/-! ### C7, C4, C1, C5 — counterexamples -/

/-- C7 counterexample: attaching a node that compares structurally equal to an
existing child sets the new node's cached index to the *earlier* child's
position, so the slot at the cached index holds the earlier child (token 11),
not the attached node (token 12).  (`n.parent is parent` itself holds.) -/
theorem C7_counterexample :
    (Node.add_child exParentEq exFreshEq).children.map (fun c => (c.unique, c.indexFromParent)) =
      [(11, some 0), (12, some 0)] ∧
    (((Node.add_child exParentEq exFreshEq).children.getD 0 exFreshEq).unique
        == exFreshEq.unique) = false ∧
    ((Node.add_child exParentEq exFreshEq).children.getD 1 exFreshEq).parent = some 10 :=
  ⟨rfl, rfl, rfl⟩

/-- C4 counterexample: removing the middle child of three leaves the last
child at position 1 with its stale cached index 2 — `remove_child` does not
revalidate the remaining siblings. -/
theorem C4_counterexample :
    (Node.remove_child exParent3 exMiddle).map
      (fun q => q.children.map (fun c => (c.data.cText, c.indexFromParent))) =
      some [("a", some 0), ("c", some 2)] ∧
    (Node.remove_child exParent3 exMiddle).map Node.idxValid = some false :=
  ⟨rfl, rfl⟩

/-- C1 counterexample: a single query-set (`cLikes == 5`) matched by two
distinct nodes collects *both* in its result list with no duplicate warning —
a query-set does not stop accepting after its first hit. -/
theorem C1_counterexample :
    (findNodes exTreeTwoHits none (some [[Field.cLikes]]) (some [[PyVal.intV 5]]) none
        pyValEq).map
      (fun r => match r with
        | .grouped gs => gs.map (fun l => l.map Node.unique)
        | _ => []) = .ok [[1, 2]] ∧
    (recursiveVarSearch pyValEq exQueryLikes5 exTreeTwoHits 3 [] false 0).2 = 0 :=
  ⟨rfl, rfl⟩

/-- C5 counterexample: removing node 101 — which has the child 102 — deletes
only 101's map entries: 102 stays registered in the identity map while no
longer reachable from the root, so the bijection between reachable nodes and
map entries is broken. -/
theorem C5_counterexample :
    (exTreeGrown.remove_node 101).map (fun t2 => (t2.uuidKeys, Node.uuids t2.root)) =
      some ([100, 102], [100]) ∧
    (exTreeGrown.remove_node 101).map
      (fun t2 => t2.uuidKeys.all (fun u => decide (u ∈ Node.uuids t2.root))) = some false :=
  ⟨rfl, rfl⟩

/-! ### C7 — attachment identity, amended -/

/-- When no pre-existing child is structurally equal to the attached child,
the `children.index` scan of `add_child` lands on the appended position. -/
theorem listIndexAppended_of_no_eq (xs : List Node) (c : Node)
    (h : ∀ e ∈ xs, Node.pyEq e c = false) :
    listIndexAppended xs c = xs.length := by
  unfold listIndexAppended
  have hn : xs.findIdx? (fun e => Node.pyEq e c) = none := by
    rw [List.findIdx?_eq_none_iff]
    intro x hx
    simp [h x hx]
  simp [hn]

/-- C7 (amended): attaching `n` under `p` always sets `n.parent` to `p`; and
*provided no earlier child of `p` compares structurally equal to `n`*, the
cached index of the attached node is the appended position, and the child
slot at that cached index holds the attached node itself.  (With an earlier
structurally equal child, `children.index` returns the earlier position
instead — see the counterexample.) -/
theorem C7_attach_identity (p c : Node)
    (h : ∀ e ∈ p.children, Node.pyEq e c = false) :
    ∃ c2, Node.add_child p c = Node.mk p.info (p.children ++ [c2]) ∧
      c2.parent = some p.unique ∧
      c2.unique = c.unique ∧
      c2.indexFromParent = some (Int.ofNat p.children.length) ∧
      (Node.add_child p c).children.get? p.children.length = some c2 := by
  have h2 : ∀ e ∈ p.children, Node.pyEq e (c.setParent (some p.unique)) = false := by
    intro e he
    rw [Node.pyEq_setParent]
    exact h e he
  have hidx : listIndexAppended p.children (c.setParent (some p.unique)) = p.children.length :=
    listIndexAppended_of_no_eq _ _ h2
  have heq : Node.add_child p c = Node.mk p.info
      (p.children ++ [(c.setParent (some p.unique)).setIndexFromParent
        (Int.ofNat p.children.length)]) := by
    simp only [Node.add_child, hidx]
  refine ⟨(c.setParent (some p.unique)).setIndexFromParent (Int.ofNat p.children.length),
    heq, rfl, rfl, rfl, ?_⟩
  rw [heq]
  show (p.children ++ [_]).get? p.children.length = _
  rw [List.get?_eq_getElem?]
  exact List.getElem?_concat_length _ _

/-- Witness for `C7_attach_identity`: attaching the childless node 101 under
the three-child parent 20. -/
theorem C7_attach_identity_witness :
    ∃ c2, Node.add_child exParent3 exNodeA = Node.mk exParent3.info (exParent3.children ++ [c2]) ∧
      c2.parent = some 20 ∧
      c2.unique = 101 ∧
      c2.indexFromParent = some 3 ∧
      (Node.add_child exParent3 exNodeA).children.get? 3 = some c2 :=
  C7_attach_identity exParent3 exNodeA (by decide)

/-! ### C4 — cached indices after mutations and sort, amended -/

mutual

theorem Node.idxValid_revalidate : ∀ n : Node, Node.idxValid (Node.revalidate n) = true
  | .mk i cs => by
    simp only [Node.revalidate, Node.idxValid]
    exact Node.idxValidL_revalidateL cs 0

theorem Node.idxValidL_revalidateL :
    ∀ (cs : List Node) (k : Nat), Node.idxValidL (Node.revalidateL cs k) k = true
  | [], _ => rfl
  | c :: cs, k => by
    have h1 : ((Node.revalidate c).setIndexFromParent (Int.ofNat k)).indexFromParent
        = some (Int.ofNat k) := rfl
    have h2 : Node.idxValid ((Node.revalidate c).setIndexFromParent (Int.ofNat k))
        = Node.idxValid (Node.revalidate c) := by
      cases hc : Node.revalidate c with
      | mk j ds => rfl
    simp only [Node.revalidateL, Node.idxValidL, Bool.and_eq_true, beq_iff_eq]
    refine ⟨⟨h1, ?_⟩, Node.idxValidL_revalidateL cs (k + 1)⟩
    rw [h2]
    exact Node.idxValid_revalidate c

end

/-- `list.remove` returns a sublist: every remaining element is one of the
original elements, untouched. -/
theorem erasePyEq_sublist :
    ∀ (cs : List Node) (c : Node) (cs2 : List Node),
      erasePyEq cs c = some cs2 → cs2.Sublist cs
  | [], _, _, h => by cases h
  | e :: es, c, cs2, h => by
    unfold erasePyEq at h
    by_cases hpe : Node.pyEq e c = true
    · rw [if_pos hpe] at h
      cases h
      exact List.sublist_cons_self e es
    · rw [if_neg hpe] at h
      cases hr : erasePyEq es c with
      | none => rw [hr] at h; cases h
      | some es2 =>
        rw [hr] at h
        have h2 : some (e :: es2) = some cs2 := h
        cases h2
        exact (erasePyEq_sublist es c es2 hr).cons₂ e

/-- C4 (amended): `add_child` revalidates only the attached child's cached
index — it stores the position of the first structurally equal child, which is
the actual appended position whenever no earlier equal sibling exists; `sort`
revalidates every cached index in the subtree; but `remove_child` returns the
remaining siblings entirely untouched, so removing a middle child leaves the
later siblings' cached indices stale (see the counterexample). -/
theorem C4_index_revalidation :
    (∀ p c, (∀ e ∈ p.children, Node.pyEq e c = false) →
      ∃ c2, (Node.add_child p c).children = p.children ++ [c2] ∧
        c2.indexFromParent = some (Int.ofNat p.children.length)) ∧
    (∀ n, Node.idxValid (Node.sortDefault n) = true) ∧
    (∀ p c q, Node.remove_child p c = some q →
      q.info = p.info ∧ q.children.Sublist p.children) := by
  refine ⟨?_, ?_, ?_⟩
  · intro p c h
    obtain ⟨c2, heq, _, _, hidx, _⟩ := C7_attach_identity p c h
    refine ⟨c2, ?_, hidx⟩
    rw [heq]
    rfl
  · intro n
    exact Node.idxValid_revalidate (Node.sortPassDefault n)
  · intro p c q h
    unfold Node.remove_child at h
    cases hr : erasePyEq p.children c with
    | none => rw [hr] at h; cases h
    | some cs2 =>
      rw [hr] at h
      have h2 : some (Node.mk p.info cs2) = some q := h
      cases h2
      exact ⟨rfl, erasePyEq_sublist p.children c cs2 hr⟩

/-- Witness for `C4_index_revalidation` at concrete inputs. -/
theorem C4_index_revalidation_witness :
    (∃ c2, (Node.add_child exParent3 exNodeA).children = exParent3.children ++ [c2] ∧
      c2.indexFromParent = some 3) ∧
    Node.idxValid (Node.sortDefault exTreeSort) = true ∧
    (exParent3Removed.info = exParent3.info ∧
      exParent3Removed.children.Sublist exParent3.children) :=
  ⟨C4_index_revalidation.1 exParent3 exNodeA (by decide)
  , C4_index_revalidation.2.1 exTreeSort
  , C4_index_revalidation.2.2 exParent3 exMiddle exParent3Removed rfl⟩

/-! ### C1 — query-set matching, amended -/

theorem Node.size_pos : ∀ n : Node, 0 < Node.size n
  | .mk _ cs => by simp [Node.size]

/-- `_dataSearch`'s loop after the node has already been claimed: no further
result list is touched, and each further hit only emits a duplicate warning. -/
theorem dataSearchGo_added (pred : PyVal → PyVal → Bool) (n : Node) :
    ∀ (qs : List (List Field × List PyVal)) (i : Nat) (curr : List (List Node)) (warns : Nat),
      dataSearchGo pred n true qs i curr true warns =
        (curr, true, warns + (qs.filter (fun q => matchesQuery pred n q)).length)
  | [], i, curr, warns => by simp [dataSearchGo]
  | q :: rest, i, curr, warns => by
    simp only [dataSearchGo, if_true]
    by_cases hm : matchesQuery pred n q = true
    · rw [if_pos hm, dataSearchGo_added pred n rest (i + 1) curr (warns + 1)]
      simp only [List.filter_cons, hm, if_true, List.length_cons, Prod.mk.injEq, true_and]
      omega
    · rw [if_neg hm, dataSearchGo_added pred n rest (i + 1) curr warns]
      simp [List.filter_cons, hm]

/-- `_dataSearch`'s loop on a not-yet-claimed node: the node is appended to
the result list of its first hit (offset by the running position `i`), the
claim flag records whether any query-set hit, and each hit beyond the first
emits a duplicate warning. -/
theorem dataSearchGo_fresh (pred : PyVal → PyVal → Bool) (n : Node) :
    ∀ (qs : List (List Field × List PyVal)) (i : Nat) (curr : List (List Node)) (warns : Nat),
      dataSearchGo pred n true qs i curr false warns =
        ((match qs.findIdx? (fun q => matchesQuery pred n q) with
          | some j => curr.set (i + j) (curr.getD (i + j) [] ++ [n])
          | none => curr)
        , qs.any (fun q => matchesQuery pred n q)
        , warns + ((qs.filter (fun q => matchesQuery pred n q)).length - 1))
  | [], i, curr, warns => by simp [dataSearchGo, List.findIdx?]
  | q :: rest, i, curr, warns => by
    simp only [dataSearchGo, if_true]
    by_cases hm : matchesQuery pred n q = true
    · rw [if_pos hm, dataSearchGo_added pred n rest (i + 1) _ warns]
      simp [List.findIdx?_cons, hm, List.filter_cons]
    · rw [if_neg hm, dataSearchGo_fresh pred n rest (i + 1) curr warns]
      cases hf : rest.findIdx? (fun q => matchesQuery pred n q) with
      | none => simp [List.findIdx?_cons, hm, hf, List.filter_cons]
      | some j =>
        have harith : i + 1 + j = i + (j + 1) := by omega
        simp [List.findIdx?_cons, hm, hf, List.filter_cons, harith]

/-- `_dataSearch` as called on each visited node (`added` enters `False`):
one `searchStep` on the accumulated lists, the claim flag, and the node's
duplicate warnings. -/
theorem dataSearch_spec (pred : PyVal → PyVal → Bool)
    (queries : List (List Field × List PyVal)) (n : Node) (curr : List (List Node)) :
    dataSearch pred n queries curr true =
      (searchStep pred queries curr n,
        (firstMatchIdx pred queries n).isSome,
        nodeWarns pred queries n) := by
  unfold dataSearch
  rw [dataSearchGo_fresh]
  unfold searchStep firstMatchIdx nodeWarns countMatches
  rw [← List.findIdx?_isSome]
  cases hf : queries.findIdx? (fun q => matchesQuery pred n q) with
  | none => simp [hf]
  | some j => simp [hf]

/-- On the first visited node (`iterated` false) the loop interleaves
appending one fresh empty list per query-set with the updates; this is the
same as running the already-seeded loop on the accumulator extended by all
the empty lists at once. -/
theorem dataSearchGo_seed (pred : PyVal → PyVal → Bool) (n : Node) :
    ∀ (qs : List (List Field × List PyVal)) (i : Nat) (curr : List (List Node))
      (added : Bool) (warns : Nat), curr.length = i →
      dataSearchGo pred n false qs i curr added warns =
        dataSearchGo pred n true qs i (curr ++ List.replicate qs.length []) added warns
  | [], i, curr, added, warns, _ => by simp [dataSearchGo]
  | q :: rest, i, curr, added, warns, hlen => by
    have hrep : curr ++ List.replicate (q :: rest).length [] =
        (curr ++ [[]]) ++ List.replicate rest.length [] := by
      simp [List.replicate_succ]
    have hgetD : (curr ++ [[]]).getD i [] = ([] : List Node) := by
      rw [List.getD_eq_getElem?_getD, List.getElem?_append]
      simp [hlen]
    have hgetD2 : ((curr ++ [[]]) ++ List.replicate rest.length []).getD i []
        = ([] : List Node) := by
      rw [List.getD_eq_getElem?_getD, List.getElem?_append]
      have h2 : i < (curr ++ [[]]).length := by simp [hlen]
      rw [if_pos h2, ← List.getD_eq_getElem?_getD, hgetD]
    have hset : ((curr ++ [[]]) ++ List.replicate rest.length []).set i ([] ++ [n]) =
        ((curr ++ [[]]).set i ([] ++ [n])) ++ List.replicate rest.length [] := by
      rw [List.set_append]
      have h2 : i < (curr ++ [[]]).length := by simp [hlen]
      rw [if_pos h2]
    have unfoldL : dataSearchGo pred n false (q :: rest) i curr added warns =
        (if matchesQuery pred n q = true then
          (if added = true then
            dataSearchGo pred n false rest (i + 1) (curr ++ [[]]) added (warns + 1)
          else
            dataSearchGo pred n false rest (i + 1)
              ((curr ++ [[]]).set i ((curr ++ [[]]).getD i [] ++ [n])) true warns)
        else dataSearchGo pred n false rest (i + 1) (curr ++ [[]]) added warns) := rfl
    have unfoldR : ∀ big : List (List Node),
        dataSearchGo pred n true (q :: rest) i big added warns =
        (if matchesQuery pred n q = true then
          (if added = true then
            dataSearchGo pred n true rest (i + 1) big added (warns + 1)
          else
            dataSearchGo pred n true rest (i + 1)
              (big.set i (big.getD i [] ++ [n])) true warns)
        else dataSearchGo pred n true rest (i + 1) big added warns) := fun _ => rfl
    rw [unfoldL, hrep, unfoldR]
    by_cases hm : matchesQuery pred n q = true
    · rw [if_pos hm, if_pos hm]
      cases added with
      | true =>
        exact dataSearchGo_seed pred n rest (i + 1) (curr ++ [[]]) true (warns + 1)
          (by simp [hlen])
      | false =>
        rw [hgetD, hgetD2, hset]
        exact dataSearchGo_seed pred n rest (i + 1) ((curr ++ [[]]).set i ([] ++ [n])) true
          warns (by simp [hlen])
    · rw [if_neg hm, if_neg hm]
      exact dataSearchGo_seed pred n rest (i + 1) (curr ++ [[]]) added warns (by simp [hlen])

/-- `_dataSearch` on the very first node with the empty outer accumulator
equals the seeded call on one empty result list per query-set. -/
theorem dataSearch_seed (pred : PyVal → PyVal → Bool)
    (queries : List (List Field × List PyVal)) (n : Node) :
    dataSearch pred n queries [] false =
      dataSearch pred n queries (List.replicate queries.length []) true := by
  unfold dataSearch
  have h := dataSearchGo_seed pred n queries 0 [] false 0 rfl
  simpa using h

mutual

/-- `_recursiveVarSearch` with a budget at least the subtree size visits the
whole subtree in depth-first pre-order, applying one `searchStep` per node
and accumulating each node's duplicate warnings. -/
theorem rvs_fold (pred : PyVal → PyVal → Bool) (queries : List (List Field × List PyVal)) :
    ∀ (n : Node) (rCount : Int) (curr : List (List Node)) (warns : Nat),
      (Node.size n : Int) ≤ rCount →
      recursiveVarSearch pred queries n rCount curr true warns =
        ((Node.flatten n).foldl (searchStep pred queries) curr,
          warns + ((Node.flatten n).map (nodeWarns pred queries)).sum)
  | .mk i cs, rCount, curr, warns, h => by
    have hsz : Node.size (.mk i cs) = 1 + Node.sizeL cs := rfl
    have h0 : ¬ (rCount = 0) := by
      have h1 : (0 : Int) < (Node.size (Node.mk i cs) : Int) := by
        exact_mod_cast Node.size_pos (Node.mk i cs)
      omega
    simp only [recursiveVarSearch, if_neg h0]
    rw [dataSearch_spec]
    cases cs with
    | nil =>
      simp [Node.flatten, Node.flattenL, searchStep]
    | cons c cs2 =>
      have hcs : (c :: cs2).isEmpty = false := rfl
      rw [hcs]
      simp only [Bool.false_eq_true, if_false]
      have hle : (Node.sizeL (c :: cs2) : Int) ≤
          (if (firstMatchIdx pred queries (Node.mk i (c :: cs2))).isSome then rCount - 1
           else rCount) := by
        rw [hsz] at h
        push_cast at h ⊢
        split <;> omega
      rw [rvsL_fold pred queries (c :: cs2) _ _ _ hle]
      simp only [Node.flatten, List.foldl_cons, List.map_cons, List.sum_cons, Prod.mk.injEq]
      exact ⟨trivial, by omega⟩

/-- The children loop of `_recursiveVarSearch` under a sufficient budget. -/
theorem rvsL_fold (pred : PyVal → PyVal → Bool) (queries : List (List Field × List PyVal)) :
    ∀ (ns : List Node) (rCount : Int) (curr : List (List Node)) (warns : Nat),
      (Node.sizeL ns : Int) ≤ rCount →
      recursiveVarSearchL pred queries ns rCount curr true warns =
        ((Node.flattenL ns).foldl (searchStep pred queries) curr,
          warns + ((Node.flattenL ns).map (nodeWarns pred queries)).sum)
  | [], rCount, curr, warns, _ => by simp [recursiveVarSearchL, Node.flattenL]
  | c :: cs, rCount, curr, warns, h => by
    have hszL : Node.sizeL (c :: cs) = Node.size c + Node.sizeL cs := rfl
    have hc : (Node.size c : Int) ≤ rCount := by
      rw [hszL] at h
      push_cast at h
      omega
    have h0 : ¬ (rCount = 0) := by
      have h1 : (0 : Int) < (Node.size c : Int) := by exact_mod_cast Node.size_pos c
      omega
    have hcs : (Node.sizeL cs : Int) ≤ rCount := by
      rw [hszL] at h
      push_cast at h
      have h1 : (0 : Int) < (Node.size c : Int) := by exact_mod_cast Node.size_pos c
      omega
    simp only [recursiveVarSearchL, if_neg h0]
    rw [rvs_fold pred queries c rCount curr warns hc]
    rw [rvsL_fold pred queries cs rCount _ _ hcs]
    simp only [Node.flattenL, List.foldl_append, List.map_append, List.sum_append,
      Prod.mk.injEq]
    exact ⟨trivial, by omega⟩

end

/-- Pointwise effect of folding `searchStep` over a node sequence: position
`i` accumulates exactly the nodes whose first hit is query-set `i`, in
sequence order. -/
theorem foldl_searchStep_getElem (pred : PyVal → PyVal → Bool)
    (queries : List (List Field × List PyVal)) :
    ∀ (ms : List Node) (curr : List (List Node)) (i : Nat),
      (ms.foldl (searchStep pred queries) curr)[i]? =
        (curr[i]?).map
          (fun l => l ++ ms.filter (fun m => firstMatchIdx pred queries m == some i))
  | [], curr, i => by cases h : curr[i]? <;> simp [h]
  | m :: ms, curr, i => by
    rw [List.foldl_cons, foldl_searchStep_getElem pred queries ms (searchStep pred queries curr m) i]
    unfold searchStep
    cases hfm : firstMatchIdx pred queries m with
    | none =>
      simp only [hfm, List.filter_cons]
      norm_num
    | some k =>
      by_cases hik : k = i
      · subst hik
        by_cases hlt : k < curr.length
        · have hget : curr[k]? = some (curr.getD k []) := by
            rw [List.getD_eq_getElem?_getD, List.getElem?_eq_getElem hlt]
            rfl
          have hset : (curr.set k (curr.getD k [] ++ [m]))[k]? =
              some (curr.getD k [] ++ [m]) := by
            simp [List.getElem?_set, hlt]
          simp only [hfm, hset, hget, List.filter_cons, Option.map_some]
          norm_num
        · have hget : curr[k]? = none := by
            rw [List.getElem?_eq_none]
            omega
          have hset : (curr.set k (curr.getD k [] ++ [m]))[k]? = none := by
            rw [List.getElem?_eq_none]
            simp only [List.length_set]
            omega
          simp only [hfm]
          rw [hset, hget]
          rfl
      · have hset : (curr.set k (curr.getD k [] ++ [m]))[i]? = curr[i]? := by
          simp [List.getElem?_set, hik]
        have hne : (some k == some i) = false := by
          simp [hik]
        simp only [hfm, hset, List.filter_cons, hne]
        norm_num

/-- The seed accumulator of one empty list per query-set turns the fold into
exactly `specLists`. -/
theorem foldl_searchStep_replicate (pred : PyVal → PyVal → Bool)
    (queries : List (List Field × List PyVal)) (n : Node) :
    (Node.flatten n).foldl (searchStep pred queries) (List.replicate queries.length []) =
      specLists pred queries n := by
  apply List.ext_getElem?
  intro i
  rw [foldl_searchStep_getElem]
  unfold specLists
  rw [List.getElem?_map]
  by_cases hi : i < queries.length
  · rw [List.getElem?_range hi]
    have hrep : (List.replicate queries.length ([] : List Node))[i]? = some [] := by
      simp [List.getElem?_replicate, hi]
    rw [hrep]
    simp
  · have h1 : (List.replicate queries.length ([] : List Node))[i]? = none := by
      rw [List.getElem?_eq_none]
      simp
      omega
    have h2 : (List.range queries.length)[i]? = none := by
      rw [List.getElem?_eq_none]
      simp
      omega
    rw [h1, h2]
    simp

/-- The first visited node seeds the accumulator: starting the search with
the empty outer list and `iterated = False` equals starting it with one empty
result list per query-set already in place. -/
theorem rvs_seed (pred : PyVal → PyVal → Bool) (queries : List (List Field × List PyVal))
    (n : Node) (rCount : Int) (warns : Nat) (h0 : ¬ (rCount = 0)) :
    recursiveVarSearch pred queries n rCount [] false warns =
      recursiveVarSearch pred queries n rCount (List.replicate queries.length []) true warns := by
  cases n with
  | mk i cs =>
    simp only [recursiveVarSearch, if_neg h0]
    rw [dataSearch_seed]

/-- C1 (amended): a full-budget search (the default cap is the subtree size)
returns exactly one result list per query-set; list `i` holds, in depth-first
pre-order, *every* node whose first hit is query-set `i` — a query-set keeps
accepting further matching nodes.  Duplicate suppression is per *node*: a
node is recorded only in the first query-set it hits, and each additional
query-set hit by the same node emits one duplicate warning. -/
theorem C1_query_set_matching (pred : PyVal → PyVal → Bool)
    (queries : List (List Field × List PyVal)) (n : Node) (rCount : Int)
    (h : (Node.size n : Int) ≤ rCount) :
    recursiveVarSearch pred queries n rCount [] false 0 =
      (specLists pred queries n, specWarns pred queries n) ∧
    (specLists pred queries n).length = queries.length := by
  constructor
  · have h0 : ¬ (rCount = 0) := by
      have h1 : (0 : Int) < (Node.size n : Int) := by exact_mod_cast Node.size_pos n
      omega
    rw [rvs_seed pred queries n rCount 0 h0]
    rw [rvs_fold pred queries n rCount (List.replicate queries.length []) 0 h]
    rw [foldl_searchStep_replicate]
    simp [specWarns]
  · simp [specLists]

/-- Witness for `C1_query_set_matching` on the two-hit tree with its
size 3 as the budget (the default cap). -/
theorem C1_query_set_matching_witness :
    recursiveVarSearch pyValEq exQueryLikes5 exTreeTwoHits 3 [] false 0 =
      (specLists pyValEq exQueryLikes5 exTreeTwoHits,
        specWarns pyValEq exQueryLikes5 exTreeTwoHits) ∧
    (specLists pyValEq exQueryLikes5 exTreeTwoHits).length = 1 :=
  C1_query_set_matching pyValEq exQueryLikes5 exTreeTwoHits 3 (by decide)

/-! ### C5 — the identity-map invariant, amended -/

theorem Node.uuids_mk (i : NInfo) (cs : List Node) :
    Node.uuids (.mk i cs) = i.unique :: Node.uuidsL cs := by
  simp [Node.uuids, Node.uuidsL, Node.flatten, Node.unique, Node.info]

theorem Node.uuidsL_nil : Node.uuidsL [] = [] := rfl

theorem Node.uuidsL_cons (c : Node) (cs : List Node) :
    Node.uuidsL (c :: cs) = Node.uuids c ++ Node.uuidsL cs := by
  simp [Node.uuids, Node.uuidsL, Node.flattenL]

theorem Node.uuidsL_append (as bs : List Node) :
    Node.uuidsL (as ++ bs) = Node.uuidsL as ++ Node.uuidsL bs := by
  induction as with
  | nil => simp [Node.uuidsL, Node.flattenL]
  | cons a as ih => simp [Node.uuidsL_cons, ih]

theorem Node.uuids_setParent (n : Node) (x : Option Nat) :
    Node.uuids (n.setParent x) = Node.uuids n := by
  cases n with
  | mk i cs => simp [Node.setParent, Node.info, Node.children, Node.uuids_mk]

theorem Node.uuids_setIndexFromParent (n : Node) (v : Int) :
    Node.uuids (n.setIndexFromParent v) = Node.uuids n := by
  cases n with
  | mk i cs => simp [Node.setIndexFromParent, Node.info, Node.children, Node.uuids_mk]

/-- A childless node's reachable set is its own token. -/
theorem Node.uuids_of_childless (n : Node) (h : n.children.isEmpty = true) :
    Node.uuids n = [n.unique] := by
  cases n with
  | mk i cs =>
    have hnil : cs = [] := by
      cases cs with
      | nil => rfl
      | cons a as => cases h
    subst hnil
    simp [Node.uuids_mk, Node.uuidsL_nil, Node.unique, Node.info]

/-- `add_child` contributes the child's whole subtree after the parent's
reachable set. -/
theorem Node.uuids_add_child (p c : Node) :
    Node.uuids (Node.add_child p c) = Node.uuids p ++ Node.uuids c := by
  cases p with
  | mk i cs =>
    show Node.uuids (Node.mk i (cs ++ [_])) = _
    rw [Node.uuids_mk, Node.uuids_mk, Node.uuidsL_append, Node.uuidsL_cons, Node.uuidsL_nil,
      Node.uuids_setIndexFromParent, Node.uuids_setParent]
    simp

mutual

/-- The attach walk leaves the tree unchanged when the parent token is
absent. -/
theorem attachUnder_not_mem : ∀ (n : Node) (pu : Nat) (c : Node),
    pu ∉ Node.uuids n → (attachUnder n pu c).1 = n ∧ (attachUnder n pu c).2 = false
  | .mk i cs, pu, c, h => by
    rw [Node.uuids_mk] at h
    have h1 : ¬ (i.unique = pu) := fun he => h (by rw [he]; exact List.mem_cons_self _ _)
    have h2 : pu ∉ Node.uuidsL cs := fun hm => h (List.mem_cons_of_mem _ hm)
    obtain ⟨ha, hb⟩ := attachUnderL_not_mem cs pu c h2
    simp only [attachUnder, if_neg h1]
    exact ⟨by rw [ha], hb⟩

/-- Forest version of `attachUnder_not_mem`. -/
theorem attachUnderL_not_mem : ∀ (ns : List Node) (pu : Nat) (c : Node),
    pu ∉ Node.uuidsL ns → (attachUnderL ns pu c).1 = ns ∧ (attachUnderL ns pu c).2 = false
  | [], _, _, _ => ⟨rfl, rfl⟩
  | m :: ms, pu, c, h => by
    rw [Node.uuidsL_cons] at h
    have h1 : pu ∉ Node.uuids m := fun hm => h (List.mem_append_left _ hm)
    have h2 : pu ∉ Node.uuidsL ms := fun hm => h (List.mem_append_right _ hm)
    obtain ⟨ha, hb⟩ := attachUnder_not_mem m pu c h1
    obtain ⟨hc, hd⟩ := attachUnderL_not_mem ms pu c h2
    simp only [attachUnderL, hb, Bool.false_eq_true, if_false]
    exact ⟨by rw [hc], hd⟩

end

mutual

/-- When the parent token is reachable, attaching succeeds and the reachable
tokens afterwards are those before plus the attached subtree's. -/
theorem attachUnder_mem : ∀ (n : Node) (pu : Nat) (c : Node),
    pu ∈ Node.uuids n →
    (attachUnder n pu c).2 = true ∧
    (Node.uuids (attachUnder n pu c).1).Perm (Node.uuids n ++ Node.uuids c)
  | .mk i cs, pu, c, h => by
    by_cases h1 : i.unique = pu
    · simp only [attachUnder, if_pos h1]
      refine ⟨by trivial, ?_⟩
      rw [Node.uuids_add_child]
    · have h2 : pu ∈ Node.uuidsL cs := by
        rw [Node.uuids_mk] at h
        cases h with
        | head => exact absurd rfl h1
        | tail _ hm => exact hm
      obtain ⟨hflag, hperm⟩ := attachUnderL_mem cs pu c h2
      simp only [attachUnder, if_neg h1]
      refine ⟨hflag, ?_⟩
      rw [Node.uuids_mk, Node.uuids_mk]
      exact (hperm.cons i.unique).trans (by simp)

/-- Forest version of `attachUnder_mem`. -/
theorem attachUnderL_mem : ∀ (ns : List Node) (pu : Nat) (c : Node),
    pu ∈ Node.uuidsL ns →
    (attachUnderL ns pu c).2 = true ∧
    (Node.uuidsL (attachUnderL ns pu c).1).Perm (Node.uuidsL ns ++ Node.uuids c)
  | [], pu, c, h => by cases h
  | m :: ms, pu, c, h => by
    by_cases h1 : pu ∈ Node.uuids m
    · obtain ⟨hflag, hperm⟩ := attachUnder_mem m pu c h1
      simp only [attachUnderL, hflag, if_true]
      refine ⟨by trivial, ?_⟩
      rw [Node.uuidsL_cons, Node.uuidsL_cons]
      have hstep : ((Node.uuids m ++ Node.uuids c) ++ Node.uuidsL ms).Perm
          ((Node.uuids m ++ Node.uuidsL ms) ++ Node.uuids c) := by
        rw [List.append_assoc, List.append_assoc]
        exact List.Perm.append_left _ List.perm_append_comm
      exact (hperm.append_right _).trans hstep
    · have h2 : pu ∈ Node.uuidsL ms := by
        rw [Node.uuidsL_cons] at h
        rcases List.mem_append.mp h with hm | hm
        · exact absurd hm h1
        · exact hm
      obtain ⟨ha, hb⟩ := attachUnder_not_mem m pu c h1
      obtain ⟨hflag, hperm⟩ := attachUnderL_mem ms pu c h2
      simp only [attachUnderL, hb, Bool.false_eq_true, if_false]
      refine ⟨hflag, ?_⟩
      rw [Node.uuidsL_cons, Node.uuidsL_cons]
      have hstep : (Node.uuids m ++ (Node.uuidsL ms ++ Node.uuids c)).Perm
          ((Node.uuids m ++ Node.uuidsL ms) ++ Node.uuids c) := by
        rw [List.append_assoc]
      exact (hperm.append_left _).trans hstep

end

mutual

/-- The removal walk finds a parent exactly when the side-condition check
does. -/
theorem removeByUuid_found : ∀ (n : Node) (u : Nat),
    (removeByUuid n u).2 = (removeCheck n u).isSome
  | .mk i cs, u => by
    by_cases hany : (cs.any fun ch => ch.unique = u) = true
    · simp only [removeByUuid, removeCheck, if_pos hany]
      rfl
    · simp only [removeByUuid, removeCheck, if_neg hany]
      exact removeByUuidL_found cs u

/-- Forest version of `removeByUuid_found`. -/
theorem removeByUuidL_found : ∀ (ns : List Node) (u : Nat),
    (removeByUuidL ns u).2 = (removeCheckL ns u).isSome
  | [], _ => rfl
  | m :: ms, u => by
    have hf := removeByUuid_found m u
    cases hc : removeCheck m u with
    | some b =>
      have ht : (removeByUuid m u).2 = true := by rw [hf, hc]; rfl
      simp only [removeByUuidL, ht, if_true, removeCheckL, hc]
      rfl
    | none =>
      have ht : (removeByUuid m u).2 = false := by rw [hf, hc]; rfl
      simp only [removeByUuidL, ht, Bool.false_eq_true, if_false, removeCheckL, hc]
      exact removeByUuidL_found ms u

end

/-- Detaching the first structurally equal child removes exactly the token
child's contribution, provided the `removeCheck` side conditions hold: the
pre-removal tokens are the removed token plus the post-removal tokens. -/
theorem erasePyEq_token_perm :
    ∀ (cs : List Node) (u : Nat) (c : Node),
      cs.find? (fun ch => ch.unique = u) = some c →
      c.children.isEmpty = true →
      cs.findIdx? (fun e => Node.pyEq e c) = cs.findIdx? (fun e => e.unique = u) →
      (Node.uuidsL cs).Perm (u :: Node.uuidsL ((erasePyEq cs c).getD cs))
  | [], u, c, hfind, _, _ => by cases hfind
  | e :: es, u, c, hfind, hleaf, hidx => by
    by_cases he : e.unique = u
    · have hce : e = c := by
        rw [List.find?_cons_of_pos _ (by simp [he])] at hfind
        injection hfind
      have hidxu : (e :: es).findIdx? (fun x => x.unique = u) = some 0 := by
        rw [List.findIdx?_cons]
        simp [he]
      have hpe : Node.pyEq e c = true := by
        by_contra hne
        rw [hidxu, List.findIdx?_cons] at hidx
        rw [if_neg (by simp [hne])] at hidx
        rw [List.findIdx?_succ] at hidx
        cases hr : es.findIdx? (fun x => Node.pyEq x c) <;> rw [hr] at hidx <;> simp at hidx
      have hcons : erasePyEq (e :: es) c =
          if Node.pyEq e c then some es
          else (erasePyEq es c).map (fun l => e :: l) := rfl
      have herase : (erasePyEq (e :: es) c).getD (e :: es) = es := by
        rw [hcons, if_pos hpe, Option.getD_some]
      rw [herase, Node.uuidsL_cons]
      have hue : Node.uuids e = [u] := by
        rw [hce, Node.uuids_of_childless c hleaf, ← hce, he]
      rw [hue]
      exact List.Perm.refl _
    · have hfind2 : es.find? (fun ch => ch.unique = u) = some c := by
        rw [List.find?_cons_of_neg _ (by simp [he])] at hfind
        exact hfind
      obtain ⟨k, hk⟩ : ∃ k, es.findIdx? (fun x => x.unique = u) = some k := by
        apply Option.isSome_iff_exists.mp
        rw [List.findIdx?_isSome]
        have := List.find?_isSome.mp (by rw [hfind2]; rfl)
        obtain ⟨x, hx, hpx⟩ := this
        exact List.any_eq_true.mpr ⟨x, hx, hpx⟩
      have hpe : Node.pyEq e c = false := by
        by_contra hne
        have hpe2 : Node.pyEq e c = true := by
          cases hcc : Node.pyEq e c
          · exact absurd hcc hne
          · rfl
        rw [List.findIdx?_cons, List.findIdx?_cons] at hidx
        rw [if_pos (by simp [hpe2]), if_neg (by simp [he])] at hidx
        rw [List.findIdx?_succ, hk] at hidx
        simp at hidx
      have hidx2 : es.findIdx? (fun x => Node.pyEq x c) = es.findIdx? (fun x => x.unique = u) := by
        rw [List.findIdx?_cons, List.findIdx?_cons] at hidx
        rw [if_neg (by simp [hpe]), if_neg (by simp [he])] at hidx
        rw [List.findIdx?_succ, List.findIdx?_succ] at hidx
        cases h1 : es.findIdx? (fun x => Node.pyEq x c) <;>
          cases h2 : es.findIdx? (fun x => x.unique = u) <;>
            rw [h1, h2] at hidx <;> simp_all
    -- continue with the inductive step
      have ih := erasePyEq_token_perm es u c hfind2 hleaf hidx2
      have hcons : erasePyEq (e :: es) c =
          if Node.pyEq e c then some es
          else (erasePyEq es c).map (fun l => e :: l) := rfl
      have herase : (erasePyEq (e :: es) c).getD (e :: es) =
          e :: (erasePyEq es c).getD es := by
        rw [hcons, if_neg (by simp [hpe])]
        cases hr : erasePyEq es c <;> simp
      rw [herase, Node.uuidsL_cons, Node.uuidsL_cons]
      exact (List.Perm.append_left _ ih).trans List.perm_middle

/-- A successful index scan pins down the element that `find?` returns: it
sits at the reported position. -/
theorem findIdx?_to_find? {α : Type} (p : α → Bool) :
    ∀ (l : List α) (k : Nat), l.findIdx? p = some k →
      ∃ c, l[k]? = some c ∧ l.find? p = some c
  | [], _, h => by cases h
  | e :: es, k, h => by
    rw [List.findIdx?_cons] at h
    by_cases hp : p e = true
    · rw [if_pos hp] at h
      have hk : 0 = k := Option.some.inj h
      subst hk
      exact ⟨e, by simp, by rw [List.find?_cons_of_pos _ hp]⟩
    · rw [if_neg hp, List.findIdx?_succ] at h
      cases hr : es.findIdx? p with
      | none => rw [hr] at h; cases h
      | some k2 =>
        rw [hr] at h
        have hk : k2 + 1 = k := by
          have h2 : some (k2 + 1) = some k := h
          exact Option.some.inj h2
        subst hk
        obtain ⟨c, hc1, hc2⟩ := findIdx?_to_find? p es k2 hr
        refine ⟨c, ?_, ?_⟩
        · rw [List.getElem?_cons_succ]; exact hc1
        · rw [List.find?_cons_of_neg _ hp]; exact hc2

mutual

/-- When the `removeCheck` side conditions hold, removing by token deletes
exactly the token's contribution from the reachable set. -/
theorem removeByUuid_perm : ∀ (n : Node) (u : Nat),
    removeCheck n u = some true →
    (Node.uuids n).Perm (u :: Node.uuids (removeByUuid n u).1)
  | .mk i cs, u, h => by
    by_cases hany : (cs.any fun ch => ch.unique = u) = true
    · have hfindS : (cs.find? fun ch => ch.unique = u).isSome = true := by
        rw [List.find?_isSome]
        obtain ⟨x, hx, hpx⟩ := List.any_eq_true.mp hany
        exact ⟨x, hx, hpx⟩
      obtain ⟨c, hfind⟩ := Option.isSome_iff_exists.mp hfindS
      have h2 : (c.children.isEmpty &&
          ((cs.findIdx? fun e => Node.pyEq e c) ==
            (cs.findIdx? fun e => e.unique = u))) = true := by
        simp only [removeCheck, if_pos hany, hfind, Option.getD_some,
          Option.some.injEq] at h
        exact h
      rw [Bool.and_eq_true] at h2
      obtain ⟨hleaf, hidxb⟩ := h2
      have hidx : (cs.findIdx? fun e => Node.pyEq e c) =
          (cs.findIdx? fun e => e.unique = u) := by
        exact beq_iff_eq.mp hidxb
      have hperm := erasePyEq_token_perm cs u c hfind hleaf hidx
      have hred : (removeByUuid (.mk i cs) u).1 = .mk i ((erasePyEq cs c).getD cs) := by
        simp only [removeByUuid, if_pos hany, hfind, Option.getD_some]
      rw [hred, Node.uuids_mk, Node.uuids_mk]
      exact (hperm.cons i.unique).trans (List.Perm.swap u i.unique _)
    · have hcl : removeCheckL cs u = some true := by
        rw [show removeCheck (.mk i cs) u = removeCheckL cs u from by
          simp only [removeCheck, if_neg hany]] at h
        exact h
      have hperm := removeByUuidL_perm cs u hcl
      have hred : (removeByUuid (.mk i cs) u).1 = .mk i (removeByUuidL cs u).1 := by
        simp only [removeByUuid, if_neg hany]
      rw [hred, Node.uuids_mk, Node.uuids_mk]
      exact (hperm.cons i.unique).trans (List.Perm.swap u i.unique _)

/-- Forest version of `removeByUuid_perm`. -/
theorem removeByUuidL_perm : ∀ (ns : List Node) (u : Nat),
    removeCheckL ns u = some true →
    (Node.uuidsL ns).Perm (u :: Node.uuidsL (removeByUuidL ns u).1)
  | [], _, h => by cases h
  | m :: ms, u, h => by
    cases hc : removeCheck m u with
    | some b =>
      have hb : b = true := by
        rw [show removeCheckL (m :: ms) u = some b from by
          simp only [removeCheckL, hc]] at h
        exact Option.some.inj h
      subst hb
      have hflag : (removeByUuid m u).2 = true := by
        rw [removeByUuid_found, hc]; rfl
      have hperm := removeByUuid_perm m u hc
      have hred : (removeByUuidL (m :: ms) u).1 = (removeByUuid m u).1 :: ms := by
        simp only [removeByUuidL, hflag, if_true]
      rw [hred, Node.uuidsL_cons, Node.uuidsL_cons]
      exact hperm.append_right _
    | none =>
      have hcl : removeCheckL ms u = some true := by
        rw [show removeCheckL (m :: ms) u = removeCheckL ms u from by
          simp only [removeCheckL, hc]] at h
        exact h
      have hflag : (removeByUuid m u).2 = false := by
        rw [removeByUuid_found, hc]; rfl
      have hperm := removeByUuidL_perm ms u hcl
      have hred : (removeByUuidL (m :: ms) u).1 = m :: (removeByUuidL ms u).1 := by
        simp only [removeByUuidL, hflag, Bool.false_eq_true, if_false]
      rw [hred, Node.uuidsL_cons, Node.uuidsL_cons]
      exact (hperm.append_left _).trans List.perm_middle

end

/-- Overwriting the slot `k` swaps the old occupant's subtree for the new
occupant's in the forest's reachable set. -/
theorem uuidsL_set_perm : ∀ (cs : List Node) (k : Nat) (c x : Node),
    cs[k]? = some c →
    (Node.uuidsL cs ++ Node.uuids x).Perm (Node.uuids c ++ Node.uuidsL (cs.set k x))
  | [], _, _, _, h => by simp at h
  | e :: es, 0, c, x, h => by
    have hce : e = c := by simpa using h
    subst hce
    rw [show (e :: es).set 0 x = x :: es from rfl]
    rw [Node.uuidsL_cons, Node.uuidsL_cons, List.append_assoc]
    exact List.Perm.append_left _ List.perm_append_comm
  | e :: es, k + 1, c, x, h => by
    have h2 : es[k]? = some c := by simpa using h
    have ih := uuidsL_set_perm es k c x h2
    rw [show (e :: es).set (k + 1) x = e :: es.set k x from rfl]
    rw [Node.uuidsL_cons, Node.uuidsL_cons, List.append_assoc]
    have hA : (Node.uuids e ++ (Node.uuids c ++ Node.uuidsL (es.set k x))).Perm
        (Node.uuids c ++ (Node.uuids e ++ Node.uuidsL (es.set k x))) := by
      rw [← List.append_assoc, ← List.append_assoc]
      exact List.Perm.append_right _ List.perm_append_comm
    exact (ih.append_left _).trans hA

mutual

/-- The replacement walk finds a parent exactly when the side-condition check
of the removal walk does — the two scans are identical. -/
theorem replaceByUuid_found : ∀ (n : Node) (u : Nat) (nn : Node),
    (replaceByUuid n u nn).2 = (removeCheck n u).isSome
  | .mk i cs, u, nn => by
    by_cases hany : (cs.any fun ch => ch.unique = u) = true
    · simp only [replaceByUuid, removeCheck, if_pos hany]
      rfl
    · simp only [replaceByUuid, removeCheck, if_neg hany]
      exact replaceByUuidL_found cs u nn

/-- Forest version of `replaceByUuid_found`. -/
theorem replaceByUuidL_found : ∀ (ns : List Node) (u : Nat) (nn : Node),
    (replaceByUuidL ns u nn).2 = (removeCheckL ns u).isSome
  | [], _, _ => rfl
  | m :: ms, u, nn => by
    have hf := replaceByUuid_found m u nn
    cases hc : removeCheck m u with
    | some b =>
      have ht : (replaceByUuid m u nn).2 = true := by rw [hf, hc]; rfl
      simp only [replaceByUuidL, ht, if_true, removeCheckL, hc]
      rfl
    | none =>
      have ht : (replaceByUuid m u nn).2 = false := by rw [hf, hc]; rfl
      simp only [replaceByUuidL, ht, Bool.false_eq_true, if_false, removeCheckL, hc]
      exact replaceByUuidL_found ms u nn

end

/-- The value `replace_child` computes when the scan for the old child hits
slot `k`: the slot is overwritten (twice, collapsed by `set_set`) with the
re-parented, re-indexed new child. -/
theorem replace_child_eq (p c nn : Node) (k : Nat)
    (h : p.children.findIdx? (fun e => Node.pyEq e c) = some k) :
    Node.replace_child p c nn = some (.mk p.info (p.children.set k
      ((nn.setParent (some p.unique)).setIndexFromParent (Int.ofNat
        (((p.children.set k (nn.setParent (some p.unique))).findIdx?
          (fun e => Node.pyEq e (nn.setParent (some p.unique)))).getD k))))) := by
  unfold Node.replace_child
  simp only [h, List.set_set]

mutual

/-- When the `removeCheck` side conditions hold and the new node is
childless, replacing by token swaps the token's contribution for the new
node's in the reachable set. -/
theorem replaceByUuid_perm : ∀ (n : Node) (u : Nat) (nn : Node),
    removeCheck n u = some true →
    (Node.uuids n ++ Node.uuids nn).Perm (u :: Node.uuids (replaceByUuid n u nn).1)
  | .mk i cs, u, nn, h => by
    by_cases hany : (cs.any fun ch => ch.unique = u) = true
    · have hfindS : (cs.find? fun ch => ch.unique = u).isSome = true := by
        rw [List.find?_isSome]
        obtain ⟨x, hx, hpx⟩ := List.any_eq_true.mp hany
        exact ⟨x, hx, hpx⟩
      obtain ⟨c, hfind⟩ := Option.isSome_iff_exists.mp hfindS
      have h2 : (c.children.isEmpty &&
          ((cs.findIdx? fun e => Node.pyEq e c) ==
            (cs.findIdx? fun e => e.unique = u))) = true := by
        simp only [removeCheck, if_pos hany, hfind, Option.getD_some,
          Option.some.injEq] at h
        exact h
      rw [Bool.and_eq_true] at h2
      obtain ⟨hleaf, hidxb⟩ := h2
      have hidx : (cs.findIdx? fun e => Node.pyEq e c) =
          (cs.findIdx? fun e => e.unique = u) := by
        exact beq_iff_eq.mp hidxb
      have hcu : c.unique = u := by
        have := List.find?_some hfind
        simpa using this
      have hkS : (cs.findIdx? fun e => e.unique = u).isSome = true := by
        rw [List.findIdx?_isSome]
        exact hany
      obtain ⟨k, hk⟩ := Option.isSome_iff_exists.mp hkS
      have hpidx : cs.findIdx? (fun e => Node.pyEq e c) = some k := by
        rw [hidx]; exact hk
      obtain ⟨c2, hc1, hc2⟩ := findIdx?_to_find? (fun e => e.unique = u) cs k hk
      have hcc : c2 = c := Option.some.inj (hc2.symm.trans hfind)
      subst hcc
      have hredR : (replaceByUuid (.mk i cs) u nn).1 =
          (Node.replace_child (.mk i cs) c2 nn).getD (.mk i cs) := by
        simp only [replaceByUuid, if_pos hany, hfind, Option.getD_some]
      rw [hredR, replace_child_eq (.mk i cs) c2 nn k hpidx, Option.getD_some]
      simp only [Node.info, Node.children]
      rw [Node.uuids_mk, Node.uuids_mk]
      have hsp := uuidsL_set_perm cs k c2
        (((nn.setParent (some (Node.unique (.mk i cs)))).setIndexFromParent (Int.ofNat
          (((cs.set k (nn.setParent (some (Node.unique (.mk i cs))))).findIdx?
            (fun e => Node.pyEq e (nn.setParent (some (Node.unique (.mk i cs)))))).getD k))))
        hc1
      rw [Node.uuids_setIndexFromParent, Node.uuids_setParent] at hsp
      rw [Node.uuids_of_childless c2 hleaf, hcu] at hsp
      exact (hsp.cons i.unique).trans (List.Perm.swap u i.unique _)
    · have hcl : removeCheckL cs u = some true := by
        rw [show removeCheck (.mk i cs) u = removeCheckL cs u from by
          simp only [removeCheck, if_neg hany]] at h
        exact h
      have hperm := replaceByUuidL_perm cs u nn hcl
      have hred : (replaceByUuid (.mk i cs) u nn).1 = .mk i (replaceByUuidL cs u nn).1 := by
        simp only [replaceByUuid, if_neg hany]
      rw [hred, Node.uuids_mk, Node.uuids_mk]
      exact (hperm.cons i.unique).trans (List.Perm.swap u i.unique _)

/-- Forest version of `replaceByUuid_perm`. -/
theorem replaceByUuidL_perm : ∀ (ns : List Node) (u : Nat) (nn : Node),
    removeCheckL ns u = some true →
    (Node.uuidsL ns ++ Node.uuids nn).Perm (u :: Node.uuidsL (replaceByUuidL ns u nn).1)
  | [], _, _, h => by cases h
  | m :: ms, u, nn, h => by
    cases hc : removeCheck m u with
    | some b =>
      have hb : b = true := by
        rw [show removeCheckL (m :: ms) u = some b from by
          simp only [removeCheckL, hc]] at h
        exact Option.some.inj h
      subst hb
      have hflag : (replaceByUuid m u nn).2 = true := by
        rw [replaceByUuid_found, hc]; rfl
      have hperm := replaceByUuid_perm m u nn hc
      have hred : (replaceByUuidL (m :: ms) u nn).1 = (replaceByUuid m u nn).1 :: ms := by
        simp only [replaceByUuidL, hflag, if_true]
      rw [hred, Node.uuidsL_cons, Node.uuidsL_cons]
      have hstep : ((Node.uuids m ++ Node.uuidsL ms) ++ Node.uuids nn).Perm
          ((Node.uuids m ++ Node.uuids nn) ++ Node.uuidsL ms) := by
        rw [List.append_assoc, List.append_assoc]
        exact List.Perm.append_left _ List.perm_append_comm
      exact hstep.trans (hperm.append_right _)
    | none =>
      have hcl : removeCheckL ms u = some true := by
        rw [show removeCheckL (m :: ms) u = removeCheckL ms u from by
          simp only [removeCheckL, hc]] at h
        exact h
      have hflag : (replaceByUuid m u nn).2 = false := by
        rw [replaceByUuid_found, hc]; rfl
      have hperm := replaceByUuidL_perm ms u nn hcl
      have hred : (replaceByUuidL (m :: ms) u nn).1 = m :: (replaceByUuidL ms u nn).1 := by
        simp only [replaceByUuidL, hflag, Bool.false_eq_true, if_false]
      rw [hred, Node.uuidsL_cons, Node.uuidsL_cons, List.append_assoc]
      exact ((hperm.append_left _)).trans List.perm_middle

end

/-- A valid attach preserves the identity-map invariant. -/
theorem add_preserves (t : CommentTree) (node : Node) (pu : Nat)
    (hI : t.Inv) (hv : addValid t node pu = true) :
    (t.add_node_parent node pu).Inv := by
  obtain ⟨hN, hK, hKU, hUK, hS⟩ := hI
  unfold addValid at hv
  rw [Bool.and_eq_true, Bool.and_eq_true] at hv
  obtain ⟨⟨hleaf, hfresh⟩, hpu⟩ := hv
  have hfresh2 : node.unique ∉ Node.uuids t.root := by simpa using hfresh
  have hpu2 : pu ∈ Node.uuids t.root := by simpa using hpu
  obtain ⟨hflag, hperm⟩ := attachUnder_mem t.root pu node hpu2
  rw [Node.uuids_of_childless node hleaf] at hperm
  have hkf : node.unique ∉ t.uuidKeys := fun hm => hfresh2 (hKU _ hm)
  have hdk : dictInsertKey t.uuidKeys node.unique = t.uuidKeys ++ [node.unique] := by
    unfold dictInsertKey
    rw [if_neg hkf]
  unfold CommentTree.add_node_parent CommentTree.Inv
  refine ⟨?_, ?_, ?_, ?_, ?_⟩
  · rw [hperm.nodup_iff, List.nodup_append]
    refine ⟨hN, List.nodup_singleton _, ?_⟩
    intro a ha hb
    have hab : a = node.unique := by simpa using hb
    subst hab
    exact hfresh2 ha
  · show (dictInsertKey t.uuidKeys node.unique).Nodup
    rw [hdk, List.nodup_append]
    refine ⟨hK, List.nodup_singleton _, ?_⟩
    intro a ha hb
    have hab : a = node.unique := by simpa using hb
    subst hab
    exact hkf ha
  · intro u hu
    rw [hdk] at hu
    rw [hperm.mem_iff]
    rcases List.mem_append.mp hu with hm | hm
    · exact List.mem_append_left _ (hKU _ hm)
    · exact List.mem_append_right _ hm
  · intro u hu
    rw [hperm.mem_iff] at hu
    rw [hdk]
    rcases List.mem_append.mp hu with hm | hm
    · exact List.mem_append_left _ (hUK _ hm)
    · exact List.mem_append_right _ hm
  · show dictInsertKey t.uuidStrKeys node.unique = dictInsertKey t.uuidKeys node.unique
    rw [hS]

/-- A valid removal succeeds and preserves the identity-map invariant. -/
theorem remove_preserves (t : CommentTree) (u : Nat) (hI : t.Inv)
    (hv : removeValid t u = true) :
    ∃ t2, t.remove_node u = some t2 ∧ t2.Inv := by
  obtain ⟨hN, hK, hKU, hUK, hS⟩ := hI
  unfold removeValid at hv
  rw [Bool.and_eq_true, Bool.and_eq_true] at hv
  obtain ⟨⟨hmem, hnr⟩, hchk⟩ := hv
  have hmem2 : u ∈ t.uuidKeys := by simpa using hmem
  have hnr2 : ¬ t.root.unique = u := by simpa using hnr
  have hchk2 : removeCheck t.root u = some true := by
    cases hc : removeCheck t.root u with
    | none => rw [hc] at hchk; cases hchk
    | some b => rw [hc] at hchk; simp at hchk; rw [hchk]
  have hperm := removeByUuid_perm t.root u hchk2
  have hSmem : u ∈ t.uuidStrKeys := by rw [hS]; exact hmem2
  refine ⟨{ root := (removeByUuid t.root u).1
          , uuidKeys := t.uuidKeys.erase u
          , uuidStrKeys := t.uuidStrKeys.erase u }, ?_, ?_⟩
  · unfold CommentTree.remove_node
    rw [if_neg (by simpa using hmem2), if_neg hnr2]
    unfold dictRemoveKey
    rw [if_pos hmem2, if_pos hSmem]
  · have hN2 : (u :: Node.uuids (removeByUuid t.root u).1).Nodup := hperm.nodup_iff.mp hN
    rw [List.nodup_cons] at hN2
    obtain ⟨hunin, hN3⟩ := hN2
    refine ⟨hN3, hK.erase u, ?_, ?_, ?_⟩
    · intro v hvm
      rw [hK.mem_erase_iff] at hvm
      obtain ⟨hvne, hvk⟩ := hvm
      have : v ∈ u :: Node.uuids (removeByUuid t.root u).1 :=
        hperm.mem_iff.mp (hKU _ hvk)
      rcases this with _ | hvm2
      · exact absurd rfl hvne
      · assumption
    · intro v hvm
      have hv2 : v ∈ Node.uuids t.root :=
        hperm.mem_iff.mpr (List.mem_cons_of_mem _ hvm)
      rw [hK.mem_erase_iff]
      refine ⟨?_, hUK _ hv2⟩
      intro hvu
      subst hvu
      exact hunin hvm
    · show t.uuidStrKeys.erase u = t.uuidKeys.erase u
      rw [hS]

/-- A valid replacement succeeds and preserves the identity-map invariant. -/
theorem replace_preserves (t : CommentTree) (u : Nat) (nn : Node) (hI : t.Inv)
    (hv : replaceValid t u nn = true) :
    ∃ t2, t.replace_node u nn = some t2 ∧ t2.Inv := by
  obtain ⟨hN, hK, hKU, hUK, hS⟩ := hI
  unfold replaceValid at hv
  rw [Bool.and_eq_true, Bool.and_eq_true] at hv
  obtain ⟨⟨hrv, hleaf⟩, hfresh⟩ := hv
  unfold removeValid at hrv
  rw [Bool.and_eq_true, Bool.and_eq_true] at hrv
  obtain ⟨⟨hmem, hnr⟩, hchk⟩ := hrv
  have hmem2 : u ∈ t.uuidKeys := by simpa using hmem
  have hnr2 : ¬ t.root.unique = u := by simpa using hnr
  have hchk2 : removeCheck t.root u = some true := by
    cases hc : removeCheck t.root u with
    | none => rw [hc] at hchk; cases hchk
    | some b => rw [hc] at hchk; simp at hchk; rw [hchk]
  have hfresh2 : nn.unique ∉ Node.uuids t.root := by simpa using hfresh
  have hperm := replaceByUuid_perm t.root u nn hchk2
  rw [Node.uuids_of_childless nn hleaf] at hperm
  have hSmem : u ∈ t.uuidStrKeys := by rw [hS]; exact hmem2
  have hkf : nn.unique ∉ t.uuidKeys := fun hm => hfresh2 (hKU _ hm)
  have hkfe : nn.unique ∉ t.uuidKeys.erase u := fun hm =>
    hkf (List.erase_subset _ _ hm)
  have hdk : dictInsertKey (t.uuidKeys.erase u) nn.unique =
      t.uuidKeys.erase u ++ [nn.unique] := by
    unfold dictInsertKey
    rw [if_neg hkfe]
  have hNL : (Node.uuids t.root ++ [nn.unique]).Nodup := by
    rw [List.nodup_append]
    refine ⟨hN, List.nodup_singleton _, ?_⟩
    intro a ha hb
    have hab : a = nn.unique := by simpa using hb
    subst hab
    exact hfresh2 ha
  have hN2 : (u :: Node.uuids (replaceByUuid t.root u nn).1).Nodup :=
    hperm.nodup_iff.mp hNL
  rw [List.nodup_cons] at hN2
  obtain ⟨hunin, hN3⟩ := hN2
  refine ⟨{ root := (replaceByUuid t.root u nn).1
          , uuidKeys := dictInsertKey (t.uuidKeys.erase u) nn.unique
          , uuidStrKeys := dictInsertKey (t.uuidStrKeys.erase u) nn.unique }, ?_, ?_⟩
  · unfold CommentTree.replace_node
    rw [if_neg (by simpa using hmem2), if_neg hnr2]
    unfold dictRemoveKey
    rw [if_pos hmem2, if_pos hSmem]
  · refine ⟨hN3, ?_, ?_, ?_, ?_⟩
    · rw [hdk, List.nodup_append]
      refine ⟨hK.erase u, List.nodup_singleton _, ?_⟩
      intro a ha hb
      have hab : a = nn.unique := by simpa using hb
      subst hab
      exact hkfe ha
    · intro v hvm
      rw [hdk] at hvm
      rcases List.mem_append.mp hvm with hm | hm
      · rw [hK.mem_erase_iff] at hm
        obtain ⟨hvne, hvk⟩ := hm
        have : v ∈ u :: Node.uuids (replaceByUuid t.root u nn).1 :=
          hperm.mem_iff.mp (List.mem_append_left _ (hKU _ hvk))
        rcases this with _ | hvm2
        · exact absurd rfl hvne
        · assumption
      · have hv : v = nn.unique := by simpa using hm
        have hcontra : ¬ v = u := by
          rw [hv]
          intro hq
          exact hkf (by rw [hq]; exact hmem2)
        have hvm2 : v ∈ u :: Node.uuids (replaceByUuid t.root u nn).1 :=
          hperm.mem_iff.mp (List.mem_append_right _
            (by rw [hv]; exact List.mem_singleton_self _))
        cases hvm2 with
        | head => exact absurd rfl hcontra
        | tail _ h3 => exact h3
    · intro v hvm
      have hv2 : v ∈ Node.uuids t.root ++ [nn.unique] :=
        hperm.mem_iff.mpr (List.mem_cons_of_mem _ hvm)
      rw [hdk]
      rcases List.mem_append.mp hv2 with hm | hm
      · refine List.mem_append_left _ ?_
        rw [hK.mem_erase_iff]
        refine ⟨?_, hUK _ hm⟩
        intro hvu
        subst hvu
        exact hunin hvm
      · exact List.mem_append_right _ hm
    · show dictInsertKey (t.uuidStrKeys.erase u) nn.unique =
        dictInsertKey (t.uuidKeys.erase u) nn.unique
      rw [hS]

/-- Any valid operation succeeds and preserves the identity-map invariant. -/
theorem applyOp_preserves (t : CommentTree) (op : TreeOp) (hI : t.Inv)
    (hv : op.valid t = true) :
    ∃ t2, t.applyOp op = some t2 ∧ t2.Inv := by
  cases op with
  | addTop node =>
    exact ⟨_, rfl, add_preserves t node t.root.unique hI hv⟩
  | addParent node pu =>
    exact ⟨_, rfl, add_preserves t node pu hI hv⟩
  | addAt node path =>
    exact ⟨_, rfl, add_preserves t node (walkIndexPath t.root path).unique hI hv⟩
  | removeById u =>
    exact remove_preserves t u hI hv
  | removeAt path =>
    exact remove_preserves t (walkIndexPath t.root path).unique hI hv
  | replaceById nn u =>
    exact replace_preserves t u nn hI hv
  | replaceAt nn path =>
    exact replace_preserves t (walkIndexPath t.root path).unique nn hI hv

/-- A fresh tree satisfies the identity-map invariant. -/
theorem init_inv (freshId : Nat) : (CommentTree.init freshId).Inv := by
  unfold CommentTree.init CommentTree.Inv
  refine ⟨?_, ?_, ?_, ?_, rfl⟩
  · rw [Node.uuids_of_childless _ (by rfl)]
    exact List.nodup_singleton _
  · exact List.nodup_singleton _
  · intro u hu
    rw [Node.uuids_of_childless _ (by rfl)]
    simpa using hu
  · intro u hu
    rw [Node.uuids_of_childless _ (by rfl)] at hu
    simpa using hu

/-- Running a valid sequence of operations preserves the invariant. -/
theorem runOpsValid_inv : ∀ (ops : List TreeOp) (t t2 : CommentTree),
    t.Inv → t.runOpsValid ops = some t2 → t2.Inv
  | [], t, t2, hI, h => by
    unfold CommentTree.runOpsValid at h
    exact (Option.some.inj h) ▸ hI
  | op :: ops, t, t2, hI, h => by
    unfold CommentTree.runOpsValid at h
    by_cases hv : TreeOp.valid t op = true
    · rw [if_pos hv] at h
      cases hap : t.applyOp op with
      | none => rw [hap] at h; cases h
      | some t1 =>
        rw [hap] at h
        obtain ⟨t1', hap', hI1⟩ := applyOp_preserves t op hI hv
        have ht1 : t1' = t1 := Option.some.inj (hap'.symm.trans hap)
        subst ht1
        exact runOpsValid_inv ops t1' t2 hI1 h
    · rw [if_neg hv] at h
      cases h

/-- C5 (amended): `size(T) = count(flatten(T)) - 1` holds for every tree
outright; the identity-map bijection (reachable tokens pairwise distinct,
`uuidDict` duplicate-free with exactly the reachable tokens as keys, and
`uuidStrDict` carrying the same keys) holds for every tree reachable from a
fresh tree by tree-level operations whose arguments satisfy the side
conditions of `TreeOp.valid`: attached and replacement nodes are childless
with unregistered tokens and are attached under reachable parents, and every
removal or replacement targets a leaf that is the first structurally equal
child of its parent — without those conditions the bijection can break, as
`list.remove`'s structural matching may detach a different child, and
removing a non-leaf unregisters one token while unreachably stranding the
entries of its descendants. -/
theorem C5_identity_maps (freshId : Nat) (ops : List TreeOp) (t : CommentTree)
    (h : (CommentTree.init freshId).runOpsValid ops = some t) :
    t.Inv ∧ t.size = t.flatten.length - 1 := by
  refine ⟨runOpsValid_inv ops _ t (init_inv freshId) h, ?_⟩
  unfold CommentTree.size CommentTree.flatten
  rw [Node.size_eq_flatten_length]

/-- Witness for `C5_identity_maps`: growing a fresh tree by two valid
attaches reaches `exTreeGrown`, whose maps are exact and whose size is its
flattening's length minus the sentinel. -/
theorem C5_identity_maps_witness :
    (CommentTree.init 100).runOpsValid
        [.addTop exNodeA, .addParent exNodeB 101] = some exTreeGrown ∧
      (exTreeGrown.Inv ∧ exTreeGrown.size = exTreeGrown.flatten.length - 1) :=
  ⟨by decide, C5_identity_maps 100 [.addTop exNodeA, .addParent exNodeB 101]
    exTreeGrown (by decide)⟩

end Yanjun
